import Mathlib

/-!
Verification development for the `pz-translate-zx` repository
(`src/pz_translate.py`), a line-oriented script parser, template
builder/renderer and translation-merge engine for Project Zomboid
translation files.

The Python code is shallowly embedded over `List Char`:
Python `str` values become `Str := List Char`, `dict` values become
insertion-ordered association lists with last-write-wins update
(`dset`), fallible code (a Python exception propagating out of the
parsed function) becomes `Option`, and the file system and the
external translation provider become explicit parameters.  Every
definition follows the corresponding source function; Python library
primitives (`str.replace`, `str.index`, `str.rindex`, `str.strip`,
`str.endswith`, slicing, `str.format_map`, `pathlib.Path.unlink`) are
modelled by small executable functions that follow their documented
behaviour on the inputs the program produces.
-/

/-- Python strings are modelled as lists of characters. -/
abbrev Str := List Char

/-- View a Lean string literal as a Python string value. -/
def chars (s : String) : Str := s.data

/-- Worker for `pyReplace`: scans left to right; `skip` counts characters
of an already-replaced match that must still be consumed. -/
def pyReplaceAux (old new : Str) : Str → Nat → Str
  | [], _ => []
  | _ :: t, k + 1 => pyReplaceAux old new t k
  | c :: t, 0 =>
    if old.isPrefixOf (c :: t) then new ++ pyReplaceAux old new t (old.length - 1)
    else c :: pyReplaceAux old new t 0

/-- Model of Python `s.replace(old, new)`: leftmost, non-overlapping
replacement of every occurrence; with an empty pattern Python inserts
`new` around every character. -/
def pyReplace (s old new : Str) : Str :=
  if old.isEmpty then new ++ s.flatMap (fun c => c :: new)
  else pyReplaceAux old new s 0

/-- Model of Python `c in s` for a single-character needle. -/
def hasChar (c : Char) (s : Str) : Bool := s.any (· = c)

/-- Model of Python `pat in s` (substring containment). -/
def containsSub (pat : Str) : Str → Bool
  | [] => pat.isEmpty
  | c :: t => pat.isPrefixOf (c :: t) || containsSub pat t

/-- The ASCII whitespace characters stripped by Python `str.strip()`
(the unicode-only whitespace code points do not occur in these files). -/
def pyIsSpace (c : Char) : Bool :=
  c = ' ' || c = '\t' || c = '\n' || c = '\r' || c = '\x0b' || c = '\x0c'

/-- Model of Python `s.strip()`. -/
def pyStrip (s : Str) : Str :=
  ((s.dropWhile pyIsSpace).reverse.dropWhile pyIsSpace).reverse

/-- Model of Python `s.endswith(pat)`. -/
def pyEndsWith (pat s : Str) : Bool := pat.isSuffixOf s

/-- Index of the first occurrence of `c`, `none` when absent
(Python `s.index(c)` raises `ValueError` when absent). -/
def findIdx (c : Char) : Str → Option Nat
  | [] => none
  | x :: t => if x = c then some 0 else (findIdx c t).map (· + 1)

/-- Model of Python `s.index(c, start)`: first occurrence at
position `≥ start`. -/
def findIdxFrom (c : Char) (start : Nat) (s : Str) : Option Nat :=
  (findIdx c (s.drop start)).map (· + start)

/-- Index of the last occurrence of `c` (Python `s.rindex(c)`). -/
def rfindIdx (c : Char) : Str → Option Nat
  | [] => none
  | x :: t =>
    match rfindIdx c t with
    | some i => some (i + 1)
    | none => if x = c then some 0 else none

/-- Model of the Python slice `s[a:b]` (for `a b : Nat`). -/
def pySlice (a b : Nat) (s : Str) : Str := (s.take b).drop a

/-- Insertion-ordered association list standing for a Python `dict`. -/
abbrev Dict := List (Str × Str)

/-- Membership test, Python `k in d`. -/
def dmem (d : Dict) (k : Str) : Bool := d.any (·.1 = k)

/-- Lookup, Python `d[k]` (`none` would raise `KeyError`). -/
def dget (d : Dict) (k : Str) : Option Str :=
  (d.find? (·.1 = k)).map (·.2)

/-- Update `d[k] = v`: in-place overwrite of an existing key (keeping
its position, as a Python dict does) or append of a new binding. -/
def dset (d : Dict) (k v : Str) : Dict :=
  if dmem d k then d.map (fun p => if p.1 = k then (k, v) else p)
  else d ++ [(k, v)]

/-- Brace escaping applied by `parse_source` to every line past the
first, from `src/pz_translate.py` lines 131-132:
`line.replace("{","{{")` then `.replace("}","}}")`. -/
def escapeFull (s : Str) : Str :=
  pyReplace (pyReplace s (chars "\x7b") (chars "\x7b\x7b")) (chars "\x7d") (chars "\x7d\x7d")

/-- Structural version of doubling every `{` (used only in proofs). -/
def dupOpen : Str → Str
  | [] => []
  | c :: t => if c = '{' then '{' :: '{' :: dupOpen t else c :: dupOpen t

/-- Structural version of doubling every `}` (used only in proofs). -/
def dupClose : Str → Str
  | [] => []
  | c :: t => if c = '}' then '}' :: '}' :: dupClose t else c :: dupClose t

/-- Structural version of doubling both braces (used only in proofs). -/
def escB : Str → Str
  | [] => []
  | c :: t =>
    if c = '{' then '{' :: '{' :: escB t
    else if c = '}' then '}' :: '}' :: escB t
    else c :: escB t

/-- Per-line state of `Translator.parse_source`
(`src/pz_translate.py` lines 122-127): accumulated template text
(`out`, the eventual `"".join(lines)`), the extracted mapping
`tdict`, the `is_valid` flag and the pending `key`/`text`. -/
structure PSt where
  out : Str
  tdict : Dict
  is_valid : Bool
  key : Str
  text : Str
  warnings : Nat
deriving DecidableEq

/-- One iteration of the `for line in f` loop of
`Translator.parse_source` (`src/pz_translate.py` lines 130-157).
The line is brace-escaped first (lines 131-132); a line with `=` and
`"` but no `"` after its first `=` makes Python `str.index` raise
`ValueError`, modelled by `none`.  The warn branch increments the
warning counter (`Translator.warn`, lines 303-306). -/
def parseLine (st : PSt) (rawLine : Str) : Option PSt :=
  let line := escapeFull rawLine
  let st1? : Option PSt :=
    if hasChar '=' line && hasChar '"' line then
      match findIdx '=' line with
      | none => none
      | some index1 =>
        match findIdxFrom '"' (index1 + 1) line with
        | none => none
        | some index2 =>
          match rfindIdx '"' line with
          | none => none
          | some index3 =>
            if index2 = index3 then
              some { st with warnings := st.warnings + 1, is_valid := false,
                             out := st.out ++ line }
            else
              let key := pyReplace (pyStrip (line.take index1)) (chars ".") (chars "-")
              let text := pySlice (index2 + 1) index3 line
              some { st with is_valid := true, key := key, text := text,
                             out := st.out ++ line.take (index2 + 1) ++ chars "\x7b" ++ key
                                    ++ chars "\x7d" ++ line.drop index3,
                             tdict := dset st.tdict key text }
    else if containsSub (chars "--") line || (pyStrip line).isEmpty
            || (pyEndsWith (chars "..") (pyStrip line) && !st.is_valid) then
      some { st with is_valid := false, out := st.out ++ line }
    else
      some { st with is_valid := true, out := st.out ++ line }
  st1?.map (fun st1 =>
    if !st1.is_valid || !pyEndsWith (chars "..") (pyStrip line) then
      { st1 with is_valid := false, key := [], text := [] }
    else st1)

/-- The `for line in f` loop of `parse_source` over the lines after
the first. -/
def parseLines : PSt → List Str → Option PSt
  | st, [] => some st
  | st, l :: ls =>
    match parseLine st l with
    | some st' => parseLines st' ls
    | none => none

/-- Processing of the first line of the source file
(`src/pz_translate.py` line 128):
`f.readline().replace("{","{{").replace(source_id,"{language}")`. -/
def parseFirstLine (srcId l1 : Str) : Str :=
  pyReplace (pyReplace l1 (chars "\x7b") (chars "\x7b\x7b")) srcId (chars "\x7blanguage\x7d")

/-- Model of `Translator.parse_source` on the contents of an existing source
file, given as its first line `l1` and the remaining lines `ls` (each
line carries its trailing newline, so the file content is
`l1 ++ ls.join`).  Returns the template text and the extracted
mapping; `none` models an uncaught `ValueError`. -/
def parseSourceLines (srcId l1 : Str) (ls : List Str) : Option (Str × Dict) :=
  let init : PSt :=
    { out := parseFirstLine srcId l1, tdict := [], is_valid := false,
      key := [], text := [], warnings := 0 }
  (parseLines init ls).map (fun st => (st.out, st.tdict))

/-- Per-line state of `Translator.import_translations`
(`src/pz_translate.py` lines 168-170). -/
structure ISt where
  tr : Dict
  is_valid : Bool
  key : Str
  text : Str
deriving DecidableEq

/-- One iteration of the `for line in f` loop of
`Translator.import_translations` (`src/pz_translate.py` lines
174-191).  Unlike `parse_source`, the line is not brace-escaped and
there is no `index2 == index3` well-formedness check. -/
def importLine (st : ISt) (line : Str) : Option ISt :=
  let st1? : Option ISt :=
    if hasChar '=' line && hasChar '"' line then
      match findIdx '=' line with
      | none => none
      | some index1 =>
        match findIdxFrom '"' (index1 + 1) line with
        | none => none
        | some index2 =>
          match rfindIdx '"' line with
          | none => none
          | some index3 =>
            let key := pyReplace (pyStrip (line.take index1)) (chars ".") (chars "-")
            let text := pySlice (index2 + 1) index3 line
            some { tr := dset st.tr key text, is_valid := true, key := key, text := text }
    else if containsSub (chars "--") line || (pyStrip line).isEmpty
            || (pyEndsWith (chars "..") (pyStrip line) && !st.is_valid) then
      some { st with is_valid := false }
    else
      some { st with is_valid := true }
  st1?.map (fun st1 =>
    if !st1.is_valid || !pyEndsWith (chars "..") (pyStrip line) then
      { st1 with is_valid := false, key := [], text := [] }
    else st1)

/-- The line loop of `import_translations`. -/
def importLines : ISt → List Str → Option ISt
  | st, [] => some st
  | st, l :: ls =>
    match importLine st l with
    | some st' => importLines st' ls
    | none => none

/-- Model of `Translator.import_translations` on the lines of an existing
target file: `f.readline()` discards the first line (line 172), then
every further line is processed into the mutable mapping `tr`. -/
def importTranslations (tr : Dict) (fileLines : List Str) : Option Dict :=
  (importLines { tr := tr, is_valid := false, key := [], text := [] }
      (fileLines.drop 1)).map (·.tr)

/-- Model of `vars_mod` (`src/pz_translate.py` lines 27-32): protect special
tags before sending text to the translation provider. -/
def vars_mod (t : Str) : Str :=
  pyReplace (pyReplace (pyReplace t (chars "<") (chars "<\x7b"))
      (chars ">") (chars "\x7d>"))
    (chars "%1") (chars "\x7b%1\x7d")

/-- Model of `vars_demod` (`src/pz_translate.py` lines 34-36): undo
`vars_mod` on the provider's output. -/
def vars_demod (t : Str) : Str :=
  pyReplace (pyReplace (pyReplace t (chars "\x7b%1\x7d") (chars "%1"))
      (chars "<\x7b") (chars "<"))
    (chars "\x7d>") (chars ">")

/-- One recorded interaction with the translation provider:
`GoogleTranslator.translate` or `GoogleTranslator.translate_batch`. -/
inductive PCall where
  | single (text : Str)
  | batch (texts : List Str)
deriving DecidableEq

/-- Model of `Translator.translate_single` (`src/pz_translate.py` lines
193-202) given the provider's single-text function `f`: every source
key absent from `trtexts` is translated one call at a time, in source
order, with `vars_mod` applied before and `vars_demod` after.  Also
returns the provider-call trace.  `tsStep` below is the loop body of
lines 200-202. -/
def tsStep (f : Str → Str) (acc : Dict × List PCall) (p : Str × Str) : Dict × List PCall :=
  if dmem acc.1 p.1 then acc
  else (dset acc.1 p.1 (vars_demod (f (vars_mod p.2))),
        acc.2 ++ [PCall.single (vars_mod p.2)])

/-- The loop of `translate_single` over the source items. -/
def translateSingle (f : Str → Str) (otexts tr : Dict) : Dict × List PCall :=
  otexts.foldl (tsStep f) (tr, [])

/-- Model of `Translator.translate_batch` (`src/pz_translate.py` lines
204-217) given the provider's batch function `g`: the absent keys and
their `vars_mod`-protected texts are collected in one pass, sent in a
single batch call when non-empty, and the results are reassigned by
index (`translations[i]`; a too-short reply would raise `IndexError`,
modelled by `none`). -/
def translateBatch (g : List Str → List Str) (orTexts trTexts : Dict) :
    Option (Dict × List PCall) :=
  let missing := orTexts.filter (fun p => !dmem trTexts p.1)
  let keys := missing.map (·.1)
  let values := missing.map (fun p => vars_mod p.2)
  if values.isEmpty then some (trTexts, [])
  else
    let ts := g values
    if keys.length ≤ ts.length then
      some ((keys.zip ts).foldl (fun d p => dset d p.1 (vars_demod p.2)) trTexts,
            [PCall.batch values])
    else none

/-- Model of `Translator.get_translations` (`src/pz_translate.py` lines
219-228): start from `{"language": tr_lang["id"]}`, layer the parsed
existing target file over it when that file exists
(`targetFile = some _`), then fill the still-missing source keys via
`translate_single`. -/
def getTranslations (f : Str → Str) (sourceTexts : Dict) (trId : Str)
    (targetFile : Option (List Str)) : Option (Dict × List PCall) :=
  let tr0 : Dict := [(chars "language", trId)]
  match targetFile with
  | some ls => (importTranslations tr0 ls).map (fun d => translateSingle f sourceTexts d)
  | none => some (translateSingle f sourceTexts tr0)

/-- Formatter scanning mode for the model of `str.format_map`:
plain literal text, one pending `{`, one pending `}`, or inside a
replacement-field name. -/
inductive FMode where
  | lit
  | open1
  | close1
  | field (acc : Str)
deriving DecidableEq

/-- Formatter state: output produced so far plus the scanning mode. -/
structure FSt where
  out : Str
  mode : FMode
deriving DecidableEq

/-- One character of the model of `str.format_map`: `{{` and `}}`
emit a literal brace, `{name}` emits the mapping's value for `name`
(`none` when the key is absent, where Python raises `KeyError`), and
a stray `}` or a `{` inside a field name is an error.  The templates
built by `parse_source` only contain plain replacement fields, so
conversions and format specs need no model. -/
def fmtStep (m : Str → Option Str) (st : FSt) (c : Char) : Option FSt :=
  match st.mode with
  | .lit =>
    if c = '{' then some ⟨st.out, .open1⟩
    else if c = '}' then some ⟨st.out, .close1⟩
    else some ⟨st.out ++ [c], .lit⟩
  | .open1 =>
    if c = '{' then some ⟨st.out ++ ['{'], .lit⟩
    else if c = '}' then none
    else some ⟨st.out, .field [c]⟩
  | .close1 =>
    if c = '}' then some ⟨st.out ++ ['}'], .lit⟩ else none
  | .field acc =>
    if c = '}' then
      match m acc with
      | some v => some ⟨st.out ++ v, .lit⟩
      | none => none
    else if c = '{' then none
    else some ⟨st.out, .field (acc ++ [c])⟩

/-- Run the formatter over a list of characters. -/
def fmtRun (m : Str → Option Str) : FSt → Str → Option FSt
  | st, [] => some st
  | st, c :: cs =>
    match fmtStep m st c with
    | some st' => fmtRun m st' cs
    | none => none

/-- Model of Python `tpl.format_map(m)`: scan the whole template; any
unterminated brace construct at the end is an error. -/
def renderTemplate (m : Str → Option Str) (tpl : Str) : Option Str :=
  (fmtRun m ⟨[], .lit⟩ tpl).bind (fun st =>
    match st.mode with
    | .lit => some st.out
    | _ => none)

/-- One file-system effect performed by `Translator.translate_main`
for a target language: write the rendered translation file, or delete
it (`unlink(missing_ok=True)`). -/
inductive FEffect where
  | write (langId : Str) (text : Str)
  | delete (langId : Str)
deriving DecidableEq

/-- The body of `Translator.translate_main` for one entry of
`self.files` (`src/pz_translate.py` lines 246-254).  `srcFile` is the
source file's contents (`none` when the file does not exist, in which
case `parse_source` catches `FileNotFoundError` and returns
`(None, None)`, lines 160-161); `targets lang` is the existing target
file's contents for language `lang`.  Python truthiness of
`source_texts` makes both `None` and an empty dict take the deletion
branch.  A `ValueError` escaping `parse_source`, a `KeyError` or
format error escaping `format_map`, or a `ValueError` escaping
`import_translations` is uncaught there and aborts the run (`none`). -/
def translateMainFile (f : Str → Str) (srcId : Str)
    (srcFile : Option (Str × List Str)) (langs : List Str)
    (targets : Str → Option (List Str)) : Option (List FEffect) :=
  match srcFile with
  | none =>
    some (langs.map (fun l => FEffect.delete l))
  | some (l1, body) =>
    match parseSourceLines srcId l1 body with
    | none => none
    | some (tpl, stexts) =>
      langs.foldlM (fun acc l =>
        if stexts.isEmpty then some (acc ++ [FEffect.delete l])
        else
          (getTranslations f stexts l (targets l)).bind (fun r =>
            (renderTemplate (dget r.1) tpl).map (fun txt =>
              acc ++ [FEffect.write l txt]))) []

/-- A file system: association of path (identified here by language
id, the file name for one fixed document) to file content. -/
abbrev FS := List (Str × Str)

/-- Does a file exist in the file system. -/
def fsHas (fs : FS) (p : Str) : Bool := fs.any (·.1 = p)

/-- Model of `pathlib.Path.unlink(missing_ok=ok)`: removing an
existing file removes it; removing a missing file is a no-op when
`ok = true` and raises `FileNotFoundError` (`none`) otherwise.
`translate_main` calls it with `missing_ok=True` (line 254). -/
def unlinkPy (ok : Bool) (fs : FS) (p : Str) : Option FS :=
  if fsHas fs p then some (fs.filter (fun q => !(q.1 = p)))
  else if ok then some fs else none

/-- Apply one effect of `translate_main` to the file system. -/
def applyEffect (fs : FS) : FEffect → Option FS
  | .write p txt => some (dset fs p txt)
  | .delete p => unlinkPy true fs p

theorem escB_open (t : Str) : escB ('{' :: t) = '{' :: '{' :: escB t := by
  simp [escB]

theorem escB_close (t : Str) : escB ('}' :: t) = '}' :: '}' :: escB t := by
  have h : ('}' : Char) ≠ '{' := by decide
  simp [escB, h]

theorem pyReplaceAux_open (s : Str) : pyReplaceAux ['{'] ['{', '{'] s 0 = dupOpen s := by
  induction s with
  | nil => rfl
  | cons c t ih =>
    by_cases h : c = '{'
    · subst h; simp [pyReplaceAux, List.isPrefixOf, dupOpen, ih]
    · have h' : ¬('{' = c) := fun e => h e.symm
      simp [pyReplaceAux, List.isPrefixOf, h, h', dupOpen, ih]

theorem pyReplaceAux_close (s : Str) : pyReplaceAux ['}'] ['}', '}'] s 0 = dupClose s := by
  induction s with
  | nil => rfl
  | cons c t ih =>
    by_cases h : c = '}'
    · subst h; simp [pyReplaceAux, List.isPrefixOf, dupClose, ih]
    · have h' : ¬('}' = c) := fun e => h e.symm
      simp [pyReplaceAux, List.isPrefixOf, h, h', dupClose, ih]

theorem pyReplace_open (s : Str) :
    pyReplace s (chars "\x7b") (chars "\x7b\x7b") = dupOpen s := by
  have h1 : chars "\x7b" = ['{'] := rfl
  have h2 : chars "\x7b\x7b" = ['{', '{'] := rfl
  rw [h1, h2, pyReplace]
  simp [pyReplaceAux_open]

theorem pyReplace_close (s : Str) :
    pyReplace s (chars "\x7d") (chars "\x7d\x7d") = dupClose s := by
  have h1 : chars "\x7d" = ['}'] := rfl
  have h2 : chars "\x7d\x7d" = ['}', '}'] := rfl
  rw [h1, h2, pyReplace]
  simp [pyReplaceAux_close]

theorem dupClose_dupOpen (s : Str) : dupClose (dupOpen s) = escB s := by
  have hone : ('{' : Char) ≠ '}' := by decide
  induction s with
  | nil => rfl
  | cons c t ih =>
    by_cases h1 : c = '{'
    · subst h1; simp [dupOpen, dupClose, escB, hone, ih]
    · by_cases h2 : c = '}'
      · subst h2; simp [dupOpen, dupClose, escB, h1, ih]
      · simp [dupOpen, dupClose, escB, h1, h2, ih]

theorem escapeFull_eq_escB (s : Str) : escapeFull s = escB s := by
  rw [escapeFull, pyReplace_open, pyReplace_close, dupClose_dupOpen]

theorem escB_append (x y : Str) : escB (x ++ y) = escB x ++ escB y := by
  induction x with
  | nil => rfl
  | cons c t ih =>
    by_cases h1 : c = '{'
    · subst h1; simp [escB, ih]
    · by_cases h2 : c = '}'
      · subst h2; simp [escB, h1, ih]
      · simp [escB, h1, h2, ih]

theorem escB_cons_ne (c : Char) (t : Str) (h1 : c ≠ '{') (h2 : c ≠ '}') :
    escB (c :: t) = c :: escB t := by
  simp [escB, h1, h2]

theorem hasChar_true_iff (c : Char) (s : Str) : hasChar c s = true ↔ c ∈ s := by
  induction s with
  | nil => simp [hasChar]
  | cons z t ih =>
    by_cases hz : z = c
    · subst hz; simp [hasChar]
    · have hz' : ¬(c = z) := fun e => hz e.symm
      simp only [hasChar, List.any_cons] at *
      simp [hz, ih, List.mem_cons, hz']

theorem hasChar_false_iff (c : Char) (s : Str) : hasChar c s = false ↔ c ∉ s := by
  rw [← Bool.not_eq_true, not_iff_not, hasChar_true_iff]

theorem hasChar_append (c : Char) (x y : Str) :
    hasChar c (x ++ y) = (hasChar c x || hasChar c y) := by
  simp [hasChar]

theorem mem_escB {a : Char} {s : Str} (h : a ∈ escB s) : a ∈ s ∨ a = '{' ∨ a = '}' := by
  induction s with
  | nil => simp [escB] at h
  | cons c t ih =>
    have hin : a = c ∨ a ∈ escB t := by
      by_cases h1 : c = '{'
      · subst h1
        rw [escB_open] at h
        simp only [List.mem_cons] at h
        tauto
      · by_cases h2 : c = '}'
        · subst h2
          rw [escB_close] at h
          simp only [List.mem_cons] at h
          tauto
        · rw [escB_cons_ne c t h1 h2] at h
          simp only [List.mem_cons] at h
          tauto
    rcases hin with h' | h'
    · exact Or.inl (by simp [h'])
    · rcases ih h' with h'' | h'' | h''
      · exact Or.inl (List.mem_cons_of_mem _ h'')
      · exact Or.inr (Or.inl h'')
      · exact Or.inr (Or.inr h'')

theorem not_mem_escB {a : Char} {s : Str} (h : a ∉ s) (h1 : a ≠ '{') (h2 : a ≠ '}') :
    a ∉ escB s := by
  intro hmem
  rcases mem_escB hmem with h' | h' | h'
  · exact h h'
  · exact h1 h'
  · exact h2 h'

theorem findIdx_append_cons (c : Char) (x y : Str) (h : c ∉ x) :
    findIdx c (x ++ c :: y) = some x.length := by
  induction x with
  | nil => simp [findIdx]
  | cons z t ih =>
    have hz : z ≠ c := fun hzc => h (by simp [hzc])
    have ht : c ∉ t := fun hct => h (List.mem_cons_of_mem _ hct)
    simp [findIdx, hz, ih ht]

theorem rfindIdx_eq_none (c : Char) (y : Str) (h : c ∉ y) : rfindIdx c y = none := by
  induction y with
  | nil => rfl
  | cons z t ih =>
    have hz : z ≠ c := fun hzc => h (by simp [hzc])
    have ht : c ∉ t := fun hct => h (List.mem_cons_of_mem _ hct)
    simp [rfindIdx, ih ht, hz]

theorem rfindIdx_append_cons (c : Char) (x y : Str) (h : c ∉ y) :
    rfindIdx c (x ++ c :: y) = some x.length := by
  induction x with
  | nil => simp [rfindIdx, rfindIdx_eq_none c y h]
  | cons z t ih => simp [rfindIdx, ih]

theorem take_append_len (x y : Str) (n : Nat) : (x ++ y).take (x.length + n) = x ++ y.take n := by
  induction x with
  | nil => simp
  | cons z t ih =>
    have harith : (z :: t).length + n = (t.length + n) + 1 := by simp; omega
    rw [harith]
    simp only [List.cons_append, List.take_succ_cons, ih]

theorem drop_append_len (x y : Str) (n : Nat) : (x ++ y).drop (x.length + n) = y.drop n := by
  induction x with
  | nil => simp
  | cons z t ih =>
    have harith : (z :: t).length + n = (t.length + n) + 1 := by simp; omega
    rw [harith]
    simp only [List.cons_append, List.drop_succ_cons, ih]

theorem escB_decomp (a c d e : Str) :
    escB (a ++ '=' :: c ++ '"' :: d ++ '"' :: e)
      = escB a ++ '=' :: (escB c ++ '"' :: (escB d ++ '"' :: escB e)) := by
  have h1 : ('=' : Char) ≠ '{' := by decide
  have h2 : ('=' : Char) ≠ '}' := by decide
  have h3 : ('"' : Char) ≠ '{' := by decide
  have h4 : ('"' : Char) ≠ '}' := by decide
  simp [escB_append, escB_cons_ne _ _ h1 h2, escB_cons_ne _ _ h3 h4]

theorem parseLine_assign_core (st : PSt) (a c d e : Str)
    (ha : '=' ∉ a) (hc : '"' ∉ c) (he : '"' ∉ e) :
    parseLine st (a ++ '=' :: c ++ '"' :: d ++ '"' :: e) =
      some (let key := pyReplace (pyStrip (escB a)) (chars ".") (chars "-")
            let base : PSt :=
              { out := st.out ++ (escB a ++ '=' :: (escB c ++ ['"'])) ++ '{' :: (key ++ '}' :: '"' :: escB e),
                tdict := dset st.tdict key (escB d), is_valid := true,
                key := key, text := escB d, warnings := st.warnings }
            if pyEndsWith (chars "..") (pyStrip (escB (a ++ '=' :: c ++ '"' :: d ++ '"' :: e))) then base
            else { base with is_valid := false, key := [], text := [] }) := by
  have hA : '=' ∉ escB a := not_mem_escB ha (by decide) (by decide)
  have hC : '"' ∉ escB c := not_mem_escB hc (by decide) (by decide)
  have hE : '"' ∉ escB e := not_mem_escB he (by decide) (by decide)
  have hesc : escapeFull (a ++ '=' :: c ++ '"' :: d ++ '"' :: e)
      = escB a ++ '=' :: (escB c ++ '"' :: (escB d ++ '"' :: escB e)) := by
    rw [escapeFull_eq_escB]; exact escB_decomp a c d e
  have hesc2 := escB_decomp a c d e
  set A := escB a with hAdef
  set C := escB c with hCdef
  set D := escB d with hDdef
  set E := escB e with hEdef
  -- the guard
  have hg1 : hasChar '=' (A ++ '=' :: (C ++ '"' :: (D ++ '"' :: E))) = true := by
    simp [hasChar_append, hasChar]
  have hg2 : hasChar '"' (A ++ '=' :: (C ++ '"' :: (D ++ '"' :: E))) = true := by
    simp [hasChar_append, hasChar]
  -- index1
  have hi1 : findIdx '=' (A ++ '=' :: (C ++ '"' :: (D ++ '"' :: E))) = some A.length :=
    findIdx_append_cons '=' A _ hA
  -- index2
  have hdrop : (A ++ '=' :: (C ++ '"' :: (D ++ '"' :: E))).drop (A.length + 1)
      = C ++ '"' :: (D ++ '"' :: E) := by
    have := drop_append_len A ('=' :: (C ++ '"' :: (D ++ '"' :: E))) 1
    simpa using this
  have hi2 : findIdxFrom '"' (A.length + 1) (A ++ '=' :: (C ++ '"' :: (D ++ '"' :: E)))
      = some (C.length + (A.length + 1)) := by
    rw [findIdxFrom, hdrop, findIdx_append_cons '"' C _ hC]
    rfl
  -- index3
  have hassoc : A ++ '=' :: (C ++ '"' :: (D ++ '"' :: E))
      = (A ++ '=' :: (C ++ '"' :: D)) ++ '"' :: E := by
    simp
  have hi3 : rfindIdx '"' (A ++ '=' :: (C ++ '"' :: (D ++ '"' :: E)))
      = some (A.length + (C.length + D.length + 2)) := by
    rw [hassoc, rfindIdx_append_cons '"' _ E hE]
    simp
    omega
  have hne : ¬(C.length + (A.length + 1) = A.length + (C.length + D.length + 2)) := by omega
  -- slices
  have htake1 : (A ++ '=' :: (C ++ '"' :: (D ++ '"' :: E))).take A.length = A := by
    have := take_append_len A ('=' :: (C ++ '"' :: (D ++ '"' :: E))) 0
    simpa using this
  have htake2 : (A ++ '=' :: (C ++ '"' :: (D ++ '"' :: E))).take (C.length + (A.length + 1) + 1)
      = A ++ '=' :: (C ++ ['"']) := by
    have harr : C.length + (A.length + 1) + 1 = (A ++ '=' :: (C ++ ['"'])).length + 0 := by
      simp; omega
    rw [harr]
    have hre : A ++ '=' :: (C ++ '"' :: (D ++ '"' :: E))
        = (A ++ '=' :: (C ++ ['"'])) ++ (D ++ '"' :: E) := by simp
    rw [hre, take_append_len]
    simp
  have hslice : pySlice (C.length + (A.length + 1) + 1) (A.length + (C.length + D.length + 2))
      (A ++ '=' :: (C ++ '"' :: (D ++ '"' :: E))) = D := by
    rw [pySlice]
    have harr : A.length + (C.length + D.length + 2) = (A ++ '=' :: (C ++ '"' :: D)).length + 0 := by
      simp; omega
    rw [hassoc, harr, take_append_len]
    have hre2 : (A ++ '=' :: (C ++ '"' :: D)) ++ List.take 0 ('"' :: E)
        = (A ++ '=' :: (C ++ ['"'])) ++ D := by simp
    rw [hre2]
    have harr2 : C.length + (A.length + 1) + 1 = (A ++ '=' :: (C ++ ['"'])).length + 0 := by
      simp; omega
    rw [harr2, drop_append_len]
    simp
  have hdrop3 : (A ++ '=' :: (C ++ '"' :: (D ++ '"' :: E))).drop (A.length + (C.length + D.length + 2))
      = '"' :: E := by
    have harr : A.length + (C.length + D.length + 2) = (A ++ '=' :: (C ++ '"' :: D)).length + 0 := by
      simp; omega
    rw [hassoc, harr, drop_append_len]
    simp
  -- now unfold
  have hchb : chars "\x7b" = ['{'] := rfl
  have hchc : chars "\x7d" = ['}'] := rfl
  simp only [parseLine, hesc, hesc2, hg1, hg2, Bool.and_self, if_true, hi1, hi2, hi3]
  rw [if_neg hne]
  simp only [htake2, hslice, hdrop3, hchb, hchc, Option.map_some]
  have htk : List.take (List.length A) (A ++ '=' :: (C ++ '"' :: (D ++ '"' :: E))) = A := htake1
  simp only [htk]
  by_cases hend : pyEndsWith (chars "..") (pyStrip (A ++ '=' :: (C ++ '"' :: (D ++ '"' :: E)))) = true
  · simp [hend, List.append_assoc]
  · simp only [Bool.not_eq_true] at hend
    simp [hend, List.append_assoc]

theorem escB_decomp2 (a c d : Str) :
    escB (a ++ '=' :: c ++ '"' :: d)
      = escB a ++ '=' :: (escB c ++ '"' :: escB d) := by
  have h1 : ('=' : Char) ≠ '{' := by decide
  have h2 : ('=' : Char) ≠ '}' := by decide
  have h3 : ('"' : Char) ≠ '{' := by decide
  have h4 : ('"' : Char) ≠ '}' := by decide
  simp [escB_append, escB_cons_ne _ _ h1 h2, escB_cons_ne _ _ h3 h4]

theorem parseLine_warn_core (st : PSt) (a c d : Str)
    (ha : '=' ∉ a) (hc : '"' ∉ c) (hd : '"' ∉ d) :
    parseLine st (a ++ '=' :: c ++ '"' :: d) =
      some { st with out := st.out ++ (escB a ++ '=' :: (escB c ++ '"' :: escB d)),
                     is_valid := false, key := [], text := [],
                     warnings := st.warnings + 1 } := by
  have hA : '=' ∉ escB a := not_mem_escB ha (by decide) (by decide)
  have hC : '"' ∉ escB c := not_mem_escB hc (by decide) (by decide)
  have hD : '"' ∉ escB d := not_mem_escB hd (by decide) (by decide)
  have hesc : escapeFull (a ++ '=' :: c ++ '"' :: d)
      = escB a ++ '=' :: (escB c ++ '"' :: escB d) := by
    rw [escapeFull_eq_escB]; exact escB_decomp2 a c d
  set A := escB a
  set C := escB c
  set D := escB d
  have hg1 : hasChar '=' (A ++ '=' :: (C ++ '"' :: D)) = true := by
    simp [hasChar_append, hasChar]
  have hg2 : hasChar '"' (A ++ '=' :: (C ++ '"' :: D)) = true := by
    simp [hasChar_append, hasChar]
  have hi1 : findIdx '=' (A ++ '=' :: (C ++ '"' :: D)) = some A.length :=
    findIdx_append_cons '=' A _ hA
  have hdrop : (A ++ '=' :: (C ++ '"' :: D)).drop (A.length + 1) = C ++ '"' :: D := by
    have := drop_append_len A ('=' :: (C ++ '"' :: D)) 1
    simpa using this
  have hi2 : findIdxFrom '"' (A.length + 1) (A ++ '=' :: (C ++ '"' :: D))
      = some (C.length + (A.length + 1)) := by
    rw [findIdxFrom, hdrop, findIdx_append_cons '"' C _ hC]
    rfl
  have hassoc : A ++ '=' :: (C ++ '"' :: D) = (A ++ '=' :: C) ++ '"' :: D := by simp
  have hi3 : rfindIdx '"' (A ++ '=' :: (C ++ '"' :: D)) = some (A.length + C.length + 1) := by
    rw [hassoc, rfindIdx_append_cons '"' _ D hD]
    simp
    omega
  have heq : C.length + (A.length + 1) = A.length + C.length + 1 := by omega
  simp only [parseLine, hesc, hg1, hg2, Bool.and_self, if_true, hi1, hi2, hi3]
  rw [if_pos heq]
  simp

def pst0 : PSt := { out := [], tdict := [], is_valid := false, key := [], text := [], warnings := 0 }

/-- C1 (amended): for an assignment line `a ++ "=" ++ c ++ "\"" ++ d ++ "\"" ++ e`
(no `=` in the prefix `a`, first `"` after the `=` opens the literal, last `"`
of the line closes it), `parse_source` records the key obtained from the
brace-ESCAPED prefix (trimmed, `.` replaced by `-`) and, as literal text, the
characters strictly between the two quotes OF THE BRACE-ESCAPED LINE, i.e. the
original characters with every brace doubled (`escB d`), not preserved
verbatim as the claim states; the template gets the escaped prefix, the
placeholder and the escaped suffix, and no warning is counted. -/
theorem c1_extraction_on_escaped_line (st : PSt) (a c d e : Str)
    (ha : '=' ∉ a) (hc : '"' ∉ c) (he : '"' ∉ e) :
    ∃ st', parseLine st (a ++ '=' :: c ++ '"' :: d ++ '"' :: e) = some st' ∧
      st'.tdict = dset st.tdict (pyReplace (pyStrip (escB a)) (chars ".") (chars "-")) (escB d) ∧
      st'.out = st.out ++ (escB a ++ '=' :: (escB c ++ '"' :: '{' ::
        (pyReplace (pyStrip (escB a)) (chars ".") (chars "-") ++ '}' :: '"' :: escB e))) ∧
      st'.warnings = st.warnings := by
  rw [parseLine_assign_core st a c d e ha hc he]
  refine ⟨_, rfl, ?_⟩
  split <;> simp [List.append_assoc]

/-- Witness for C1 (amended) at the concrete line `Key.Sub = "Hi"`. -/
theorem c1_extraction_witness :
    ('=' ∉ chars "Key.Sub ") ∧ ('"' ∉ chars " ") ∧ ('"' ∉ chars "\n") ∧
    (∃ st', parseLine pst0 (chars "Key.Sub " ++ '=' :: chars " " ++ '"' :: chars "Hi" ++ '"' :: chars "\n") = some st' ∧
      st'.tdict = dset pst0.tdict (pyReplace (pyStrip (escB (chars "Key.Sub "))) (chars ".") (chars "-")) (escB (chars "Hi")) ∧
      st'.out = pst0.out ++ (escB (chars "Key.Sub ") ++ '=' :: (escB (chars " ") ++ '"' :: '{' ::
        (pyReplace (pyStrip (escB (chars "Key.Sub "))) (chars ".") (chars "-") ++ '}' :: '"' :: escB (chars "\n")))) ∧
      st'.warnings = pst0.warnings) :=
  ⟨by decide, by decide, by decide,
   c1_extraction_on_escaped_line pst0 (chars "Key.Sub ") (chars " ") (chars "Hi") (chars "\n") (by decide) (by decide) (by decide)⟩

/-- Counterexample to C1 as stated: for the spec's own example line
`Key.Sub="Hello, \x7bname\x7d!"`, the extracted literal is
`Hello, \x7b\x7bname\x7d\x7d!` (braces doubled by the escaping applied
before extraction), not the verbatim `Hello, \x7bname\x7d!`. -/
theorem c1_braces_doubled_counterexample :
    (parseLine pst0 (chars "Key.Sub=\"Hello, \x7bname\x7d!\"\n")).map PSt.tdict
      = some [(chars "Key-Sub", chars "Hello, \x7b\x7bname\x7d\x7d!")] ∧
    chars "Hello, \x7b\x7bname\x7d\x7d!" ≠ chars "Hello, \x7bname\x7d!" :=
  ⟨by decide, by decide⟩

/-- C5: a line containing `=` and `"` whose first `"` after the first `=` is
also the last `"` of the line (decomposed as `a ++ "=" ++ c ++ "\"" ++ d`
with no `=` in `a` and no `"` in `c` or `d`) does not abort the parse: the
warning counter is incremented by exactly one, the line is emitted into the
template verbatim apart from brace escaping, no entry is added to the
extracted mapping (`tdict` is unchanged), and the active flag ends false with
the pending key/text discarded. -/
theorem c5_malformed_quote_tolerance (st : PSt) (a c d : Str)
    (ha : '=' ∉ a) (hc : '"' ∉ c) (hd : '"' ∉ d) :
    parseLine st (a ++ '=' :: c ++ '"' :: d) =
      some { st with out := st.out ++ (escB a ++ '=' :: (escB c ++ '"' :: escB d)),
                     is_valid := false, key := [], text := [],
                     warnings := st.warnings + 1 } :=
  parseLine_warn_core st a c d ha hc hd

/-- Witness for C5 at the spec's example line `Foo="bar`. -/
theorem c5_malformed_witness :
    ('=' ∉ chars "Foo") ∧ ('"' ∉ ([] : Str)) ∧ ('"' ∉ chars "bar\n") ∧
    parseLine pst0 (chars "Foo" ++ '=' :: ([] : Str) ++ '"' :: chars "bar\n") =
      some { pst0 with out := pst0.out ++ (escB (chars "Foo") ++ '=' :: (escB ([] : Str) ++ '"' :: escB (chars "bar\n"))),
                       is_valid := false, key := [], text := [],
                       warnings := pst0.warnings + 1 } :=
  ⟨by decide, by decide, by decide,
   c5_malformed_quote_tolerance pst0 (chars "Foo") [] (chars "bar\n") (by decide) (by decide) (by decide)⟩

def repLt (s : Str) : Str := pyReplaceAux ['<'] ['<', '{'] s 0

def repGt (s : Str) : Str := pyReplaceAux ['>'] ['}', '>'] s 0

def repPct (s : Str) : Str := pyReplaceAux ['%', '1'] ['{', '%', '1', '}'] s 0

def unrepPct (s : Str) : Str := pyReplaceAux ['{', '%', '1', '}'] ['%', '1'] s 0

def unrepLt (s : Str) : Str := pyReplaceAux ['<', '{'] ['<'] s 0

def unrepGt (s : Str) : Str := pyReplaceAux ['}', '>'] ['>'] s 0

theorem vars_mod_eq (t : Str) : vars_mod t = repPct (repGt (repLt t)) := rfl

theorem vars_demod_eq (t : Str) : vars_demod t = unrepGt (unrepLt (unrepPct t)) := rfl

theorem repLt_nil : repLt [] = [] := rfl

theorem repLt_cons (c : Char) (t : Str) :
    repLt (c :: t) = if c = '<' then '<' :: '{' :: repLt t else c :: repLt t := by
  by_cases h : c = '<'
  · subst h; simp [repLt, pyReplaceAux, List.isPrefixOf]
  · have h' : ¬('<' = c) := fun e => h e.symm
    simp [repLt, pyReplaceAux, List.isPrefixOf, h, h']

theorem repGt_nil : repGt [] = [] := rfl

theorem repGt_cons (c : Char) (t : Str) :
    repGt (c :: t) = if c = '>' then '}' :: '>' :: repGt t else c :: repGt t := by
  by_cases h : c = '>'
  · subst h; simp [repGt, pyReplaceAux, List.isPrefixOf]
  · have h' : ¬('>' = c) := fun e => h e.symm
    simp [repGt, pyReplaceAux, List.isPrefixOf, h, h']

theorem repPct_nil : repPct [] = [] := rfl

theorem repPct_cons2 (r : Str) : repPct ('%' :: '1' :: r) = '{' :: '%' :: '1' :: '}' :: repPct r := by
  simp [repPct, pyReplaceAux, List.isPrefixOf]

theorem repPct_cons_nomatch (c : Char) (t : Str)
    (h : (['%', '1'] : Str).isPrefixOf (c :: t) = false) :
    repPct (c :: t) = c :: repPct t := by
  simp [repPct, pyReplaceAux, h]

theorem unrepPct_cons4 (r : Str) :
    unrepPct ('{' :: '%' :: '1' :: '}' :: r) = '%' :: '1' :: unrepPct r := by
  simp [unrepPct, pyReplaceAux, List.isPrefixOf]

theorem unrepPct_cons_nomatch (c : Char) (t : Str)
    (h : (['{', '%', '1', '}'] : Str).isPrefixOf (c :: t) = false) :
    unrepPct (c :: t) = c :: unrepPct t := by
  simp [unrepPct, pyReplaceAux, h]

theorem unrepLt_cons2 (r : Str) : unrepLt ('<' :: '{' :: r) = '<' :: unrepLt r := by
  simp [unrepLt, pyReplaceAux, List.isPrefixOf]

theorem unrepLt_cons_nomatch (c : Char) (t : Str)
    (h : (['<', '{'] : Str).isPrefixOf (c :: t) = false) :
    unrepLt (c :: t) = c :: unrepLt t := by
  simp [unrepLt, pyReplaceAux, h]

theorem unrepGt_cons2 (r : Str) : unrepGt ('}' :: '>' :: r) = '>' :: unrepGt r := by
  simp [unrepGt, pyReplaceAux, List.isPrefixOf]

theorem unrepGt_cons_nomatch (c : Char) (t : Str)
    (h : (['}', '>'] : Str).isPrefixOf (c :: t) = false) :
    unrepGt (c :: t) = c :: unrepGt t := by
  simp [unrepGt, pyReplaceAux, h]

theorem bool_not_true {b : Bool} (h : ¬b = true) : b = false := by
  cases b
  · rfl
  · exact absurd rfl h

theorem isPrefixOf_pair_iff (a b c : Char) (t : Str) :
    (([a, b] : Str).isPrefixOf (c :: t) = true) ↔ (c = a ∧ ∃ r, t = b :: r) := by
  cases t with
  | nil =>
    simp [List.isPrefixOf]
  | cons d r =>
    simp only [List.isPrefixOf, Bool.and_eq_true, beq_iff_eq, List.isPrefixOf.eq_1]
    constructor
    · rintro ⟨h1, h2, -⟩
      exact ⟨h1.symm, r, by rw [h2]⟩
    · rintro ⟨h1, q, hq⟩
      cases hq
      exact ⟨h1.symm, rfl, trivial⟩

theorem repPct_head (u : Str) (w : Char) (rest : Str) (h : repPct u = w :: rest) :
    w = '{' ∨ ∃ q, u = w :: q := by
  match u with
  | [] => simp [repPct_nil] at h
  | c :: t =>
    by_cases hp : (['%', '1'] : Str).isPrefixOf (c :: t) = true
    · obtain ⟨hc, r, hr⟩ := (isPrefixOf_pair_iff '%' '1' c t).mp hp
      subst hc; subst hr
      rw [repPct_cons2] at h
      exact Or.inl (List.cons.inj h).1.symm
    · rw [repPct_cons_nomatch c t (bool_not_true hp)] at h
      exact Or.inr ⟨t, by rw [(List.cons.inj h).1]⟩

theorem unrepPct_repPct (t : Str) : unrepPct (repPct t) = t := by
  suffices h : ∀ n (t : Str), t.length ≤ n → unrepPct (repPct t) = t from h t.length t le_rfl
  intro n
  induction n with
  | zero =>
    intro t ht
    have : t = [] := List.eq_nil_of_length_eq_zero (Nat.le_zero.mp ht)
    subst this; rfl
  | succ n ih =>
    intro t ht
    match t with
    | [] => rfl
    | c :: t' =>
      by_cases hp : (['%', '1'] : Str).isPrefixOf (c :: t') = true
      · obtain ⟨hc, r, hr⟩ := (isPrefixOf_pair_iff '%' '1' c t').mp hp
        subst hc; subst hr
        rw [repPct_cons2, unrepPct_cons4, ih r (by simp at ht; omega)]
      · rw [repPct_cons_nomatch c t' (bool_not_true hp)]
        have hnm : (['{', '%', '1', '}'] : Str).isPrefixOf (c :: repPct t') = false := by
          by_cases hc : c = '{'
          · subst hc
            cases hq : repPct t' with
            | nil => simp [List.isPrefixOf]
            | cons w rest =>
              rcases repPct_head t' w rest hq with hw | ⟨q, hq'⟩
              · subst hw; simp [List.isPrefixOf]
              · subst hq'
                by_cases hw : w = '%'
                · subst hw
                  have hq1 : (['%', '1'] : Str).isPrefixOf ('%' :: q) = false := by
                    by_cases hx : (['%', '1'] : Str).isPrefixOf ('%' :: q) = true
                    · obtain ⟨-, r2, hr2⟩ := (isPrefixOf_pair_iff '%' '1' '%' q).mp hx
                      subst hr2
                      rw [repPct_cons2] at hq
                      exact absurd (List.cons.inj hq).1 (by decide)
                    · exact bool_not_true hx
                  have hrest : rest = repPct q := by
                    rw [repPct_cons_nomatch '%' q hq1] at hq
                    exact ((List.cons.inj hq).2).symm
                  have hq2 : ∀ z, q ≠ '1' :: z := by
                    intro z hz
                    rw [hz] at hq1
                    simp [List.isPrefixOf] at hq1
                  cases hr2 : rest with
                  | nil => simp [List.isPrefixOf]
                  | cons w2 rest2 =>
                    rcases repPct_head q w2 rest2 (by rw [← hrest, hr2]) with hw2 | ⟨q2, hq2'⟩
                    · subst hw2; simp [List.isPrefixOf]
                    · by_cases h12 : w2 = '1'
                      · subst h12; exact absurd hq2' (hq2 q2)
                      · have h12' : ¬('1' = w2) := fun e => h12 e.symm
                        simp [List.isPrefixOf, h12, h12']
                · have hw' : ¬('%' = w) := fun e => hw e.symm
                  simp [List.isPrefixOf, hw, hw']
          · have hc' : ¬('{' = c) := fun e => hc e.symm
            simp [List.isPrefixOf, hc, hc']
        rw [unrepPct_cons_nomatch c _ hnm, ih t' (by simp at ht; omega)]

theorem repGt_head_ne (u : Str) (w : Char) (rest : Str) (h : repGt u = w :: rest) : w ≠ '>' := by
  match u with
  | [] => simp [repGt_nil] at h
  | c :: q =>
    rw [repGt_cons] at h
    by_cases hc : c = '>'
    · rw [if_pos hc] at h
      rw [← (List.cons.inj h).1]
      decide
    · rw [if_neg hc] at h
      rw [← (List.cons.inj h).1]
      exact hc

theorem unrepGt_repGt (t : Str) : unrepGt (repGt t) = t := by
  induction t with
  | nil => rfl
  | cons c t ih =>
    rw [repGt_cons]
    by_cases hc : c = '>'
    · subst hc
      rw [if_pos rfl, unrepGt_cons2, ih]
    · rw [if_neg hc]
      have hnm : (['}', '>'] : Str).isPrefixOf (c :: repGt t) = false := by
        by_cases hc2 : c = '}'
        · subst hc2
          cases hq : repGt t with
          | nil => simp [List.isPrefixOf]
          | cons w rest =>
            have hw : w ≠ '>' := repGt_head_ne t w rest hq
            have hw' : ¬('>' = w) := fun e => hw e.symm
            simp [List.isPrefixOf, hw']
        · have hc2' : ¬('}' = c) := fun e => hc2 e.symm
          simp [List.isPrefixOf, hc2']
      rw [unrepGt_cons_nomatch c _ hnm, ih]

theorem unrepLt_repGt_repLt (s : Str) : unrepLt (repGt (repLt s)) = repGt s := by
  induction s with
  | nil => rfl
  | cons c s ih =>
    rw [repLt_cons, repGt_cons c s]
    by_cases h1 : c = '<'
    · subst h1
      rw [if_pos rfl, if_neg (by decide : ¬('<' : Char) = '>')]
      rw [repGt_cons, if_neg (by decide : ¬('<' : Char) = '>')]
      rw [repGt_cons, if_neg (by decide : ¬('{' : Char) = '>')]
      rw [unrepLt_cons2, ih]
    · rw [if_neg h1]
      by_cases h2 : c = '>'
      · subst h2
        rw [if_pos rfl, repGt_cons, if_pos rfl]
        rw [unrepLt_cons_nomatch '}' _ (by simp [List.isPrefixOf]),
            unrepLt_cons_nomatch '>' _ (by simp [List.isPrefixOf]), ih]
      · rw [if_neg h2, repGt_cons, if_neg h2]
        have h1' : ¬('<' = c) := fun e => h1 e.symm
        rw [unrepLt_cons_nomatch c _ (by simp [List.isPrefixOf, h1']), ih]

/-- C10: for every string `s`, `vars_demod (vars_mod s) = s`: the tag
protection applied before sending text to the provider (each `<` to `<` plus
`\x7b`, each `>` to `\x7d` plus `>`, each `%1` wrapped in braces) is exactly
inverted by the decoding applied to the provider's output, so untranslated
text round-trips unchanged. -/
theorem c10_vars_mod_demod_roundtrip (s : Str) : vars_demod (vars_mod s) = s := by
  rw [vars_mod_eq, vars_demod_eq, unrepPct_repPct, unrepLt_repGt_repLt, unrepGt_repGt]

theorem fmtRun_cons_some (m : Str → Option Str) (st : FSt) (c : Char) (cs : Str) (st' : FSt)
    (h : fmtStep m st c = some st') : fmtRun m st (c :: cs) = fmtRun m st' cs := by
  show (match fmtStep m st c with | some st2 => fmtRun m st2 cs | none => none) = fmtRun m st' cs
  rw [h]

theorem fmtStep_lit_open (m : Str → Option Str) (out : Str) :
    fmtStep m ⟨out, .lit⟩ '{' = some ⟨out, .open1⟩ := by
  simp [fmtStep]

theorem fmtStep_lit_close (m : Str → Option Str) (out : Str) :
    fmtStep m ⟨out, .lit⟩ '}' = some ⟨out, .close1⟩ := by
  simp [fmtStep]

theorem fmtStep_lit_char (m : Str → Option Str) (out : Str) (c : Char)
    (h1 : c ≠ '{') (h2 : c ≠ '}') :
    fmtStep m ⟨out, .lit⟩ c = some ⟨out ++ [c], .lit⟩ := by
  simp [fmtStep, h1, h2]

theorem fmtStep_open_open (m : Str → Option Str) (out : Str) :
    fmtStep m ⟨out, .open1⟩ '{' = some ⟨out ++ ['{'], .lit⟩ := by
  simp [fmtStep]

theorem fmtStep_open_char (m : Str → Option Str) (out : Str) (c : Char)
    (h1 : c ≠ '{') (h2 : c ≠ '}') :
    fmtStep m ⟨out, .open1⟩ c = some ⟨out, .field [c]⟩ := by
  simp [fmtStep, h1, h2]

theorem fmtStep_close_close (m : Str → Option Str) (out : Str) :
    fmtStep m ⟨out, .close1⟩ '}' = some ⟨out ++ ['}'], .lit⟩ := by
  simp [fmtStep]

theorem fmtStep_field_char (m : Str → Option Str) (out acc : Str) (c : Char)
    (h1 : c ≠ '}') (h2 : c ≠ '{') :
    fmtStep m ⟨out, .field acc⟩ c = some ⟨out, .field (acc ++ [c])⟩ := by
  simp [fmtStep, h1, h2]

theorem fmtStep_field_close (m : Str → Option Str) (out acc v : Str) (h : m acc = some v) :
    fmtStep m ⟨out, .field acc⟩ '}' = some ⟨out ++ v, .lit⟩ := by
  simp [fmtStep, h]

theorem fmtRun_append (m : Str → Option Str) (a : Str) :
    ∀ (st : FSt) (b : Str),
      fmtRun m st (a ++ b) = (fmtRun m st a).bind (fun st' => fmtRun m st' b) := by
  induction a with
  | nil => intro st b; simp [fmtRun]
  | cons c t ih =>
    intro st b
    show (match fmtStep m st c with
          | some st2 => fmtRun m st2 (t ++ b)
          | none => none)
        = (match fmtStep m st c with
          | some st2 => fmtRun m st2 (c :: t).tail
          | none => none).bind (fun st' => fmtRun m st' b)
    cases h : fmtStep m st c with
    | none => simp
    | some st2 => simp [ih st2]

theorem fmtRun_escB (m : Str → Option Str) (s : Str) :
    ∀ out, fmtRun m ⟨out, .lit⟩ (escB s) = some ⟨out ++ s, .lit⟩ := by
  induction s with
  | nil => intro out; simp [escB, fmtRun]
  | cons c t ih =>
    intro out
    by_cases h1 : c = '{'
    · subst h1
      rw [escB_open, fmtRun_cons_some m _ _ _ _ (fmtStep_lit_open m out),
          fmtRun_cons_some m _ _ _ _ (fmtStep_open_open m out), ih (out ++ ['{'])]
      simp
    · by_cases h2 : c = '}'
      · subst h2
        rw [escB_close, fmtRun_cons_some m _ _ _ _ (fmtStep_lit_close m out),
            fmtRun_cons_some m _ _ _ _ (fmtStep_close_close m out), ih (out ++ ['}'])]
        simp
      · rw [escB_cons_ne c t h1 h2,
            fmtRun_cons_some m _ _ _ _ (fmtStep_lit_char m out c h1 h2), ih (out ++ [c])]
        simp

theorem fmtRun_field_name (m : Str → Option Str) (name : Str)
    (h1 : '{' ∉ name) (h2 : '}' ∉ name) :
    ∀ (acc out rest : Str),
      fmtRun m ⟨out, .field acc⟩ (name ++ '}' :: rest) =
        (match m (acc ++ name) with
         | some v => fmtRun m ⟨out ++ v, .lit⟩ rest
         | none => none) := by
  induction name with
  | nil =>
    intro acc out rest
    show (match fmtStep m ⟨out, .field acc⟩ '}' with
          | some st2 => fmtRun m st2 rest
          | none => none) = _
    cases h : m acc with
    | none => simp [fmtStep, h]
    | some v => rw [fmtStep_field_close m out acc v h]; simp [h]
  | cons c t ih =>
    intro acc out rest
    have hc1 : c ≠ '{' := fun e => h1 (by simp [e])
    have hc2 : c ≠ '}' := fun e => h2 (by simp [e])
    have ht1 : '{' ∉ t := fun e => h1 (List.mem_cons_of_mem _ e)
    have ht2 : '}' ∉ t := fun e => h2 (List.mem_cons_of_mem _ e)
    rw [List.cons_append, fmtRun_cons_some m _ _ _ _ (fmtStep_field_char m out acc c hc2 hc1),
        ih ht1 ht2 (acc ++ [c]) out rest]
    simp

theorem fmtRun_placeholder (m : Str → Option Str) (name L : Str)
    (hn1 : '{' ∉ name) (hn2 : '}' ∉ name) (hne : name ≠ [])
    (h : m name = some L) :
    ∀ (out rest : Str),
      fmtRun m ⟨out, .lit⟩ ('{' :: (name ++ '}' :: rest)) = fmtRun m ⟨out ++ L, .lit⟩ rest := by
  intro out rest
  cases name with
  | nil => exact absurd rfl hne
  | cons c t =>
    have hc1 : c ≠ '{' := fun e => hn1 (by simp [e])
    have hc2 : c ≠ '}' := fun e => hn2 (by simp [e])
    have ht1 : '{' ∉ t := fun e => hn1 (List.mem_cons_of_mem _ e)
    have ht2 : '}' ∉ t := fun e => hn2 (List.mem_cons_of_mem _ e)
    rw [fmtRun_cons_some m _ _ _ _ (fmtStep_lit_open m out), List.cons_append,
        fmtRun_cons_some m _ _ _ _ (fmtStep_open_char m out c hc1 hc2),
        fmtRun_field_name m t ht1 ht2 [c] out rest]
    simp [h]

theorem pyReplaceAux_skip (old new : Str) (x : Str) :
    ∀ y, pyReplaceAux old new (x ++ y) x.length = pyReplaceAux old new y 0 := by
  induction x with
  | nil => intro y; rfl
  | cons z t ih => intro y; simp [pyReplaceAux, ih]

theorem isPrefixOf_append_self (x y : Str) : x.isPrefixOf (x ++ y) = true := by
  induction x with
  | nil => simp [List.isPrefixOf]
  | cons a as ih => simp [List.isPrefixOf, ih]

theorem pyReplaceAux_cons_nomatch (old new : Str) (c : Char) (t : Str)
    (h : old.isPrefixOf (c :: t) = false) :
    pyReplaceAux old new (c :: t) 0 = c :: pyReplaceAux old new t 0 := by
  simp [pyReplaceAux, h]

theorem pyReplaceAux_match (old new : Str) (q : Str) (h : old ≠ []) :
    pyReplaceAux old new (old ++ q) 0 = new ++ pyReplaceAux old new q 0 := by
  cases old with
  | nil => exact absurd rfl h
  | cons o0 orest =>
    have hpre := isPrefixOf_append_self (o0 :: orest) q
    show pyReplaceAux (o0 :: orest) new (o0 :: (orest ++ q)) 0 = _
    rw [pyReplaceAux]
    simp only [← List.cons_append, hpre, if_pos]
    have hlen : (o0 :: orest).length - 1 = orest.length := by simp
    rw [hlen, pyReplaceAux_skip]

theorem isPrefixOf_iff_exists (x : Str) : ∀ y : Str, x.isPrefixOf y = true ↔ ∃ q, y = x ++ q := by
  induction x with
  | nil => intro y; simp [List.isPrefixOf]
  | cons a as ih =>
    intro y
    cases y with
    | nil => simp [List.isPrefixOf]
    | cons b bs =>
      simp only [List.isPrefixOf, Bool.and_eq_true, beq_iff_eq, ih bs]
      constructor
      · rintro ⟨h1, q, hq⟩
        exact ⟨q, by rw [h1, hq]; rfl⟩
      · rintro ⟨q, hq⟩
        rw [List.cons_append] at hq
        exact ⟨(List.cons.inj hq).1.symm, q, (List.cons.inj hq).2⟩

theorem dupOpen_append (x y : Str) : dupOpen (x ++ y) = dupOpen x ++ dupOpen y := by
  induction x with
  | nil => rfl
  | cons c t ih =>
    by_cases h : c = '{'
    · subst h; simp [dupOpen, ih]
    · simp [dupOpen, h, ih]

theorem dupOpen_no_open (x : Str) (h : '{' ∉ x) : dupOpen x = x := by
  induction x with
  | nil => rfl
  | cons c t ih =>
    have hc : c ≠ '{' := fun e => h (by simp [e])
    have ht : '{' ∉ t := fun e => h (List.mem_cons_of_mem _ e)
    simp [dupOpen, hc, ih ht]

theorem isPrefixOf_dupOpen (s : Str) : ∀ pat : Str, '{' ∉ pat →
    pat.isPrefixOf (dupOpen s) = pat.isPrefixOf s := by
  induction s with
  | nil => intro pat h; rfl
  | cons c t ih =>
    intro pat h
    cases pat with
    | nil => simp [List.isPrefixOf]
    | cons a as =>
      have ha : a ≠ '{' := fun e => h (by simp [e])
      have has : '{' ∉ as := fun e => h (List.mem_cons_of_mem _ e)
      by_cases hc : c = '{'
      · subst hc
        have h1 : (a == '{') = false := by simp [ha]
        simp [dupOpen, List.isPrefixOf, h1]
      · simp [dupOpen, hc, List.isPrefixOf, ih as has]

theorem pyReplace_eq_aux (s old new : Str) (h : old ≠ []) :
    pyReplace s old new = pyReplaceAux old new s 0 := by
  have hie : old.isEmpty = false := by cases old with | nil => exact absurd rfl h | cons a t => rfl
  rw [pyReplace, hie]
  simp

theorem fmtRun_firstLine (m : Str → Option Str) (srcId L : Str)
    (hid : srcId ≠ []) (hidO : '{' ∉ srcId) (hidC : '}' ∉ srcId)
    (hm : m (chars "language") = some L) :
    ∀ (n : Nat) (l1 : Str), l1.length ≤ n → '}' ∉ l1 → ∀ out,
      fmtRun m ⟨out, .lit⟩ (pyReplaceAux srcId (chars "\x7blanguage\x7d") (dupOpen l1) 0)
        = some ⟨out ++ pyReplaceAux srcId L l1 0, .lit⟩ := by
  intro n
  induction n with
  | zero =>
    intro l1 hlen hcl out
    have : l1 = [] := List.eq_nil_of_length_eq_zero (Nat.le_zero.mp hlen)
    subst this
    simp [dupOpen, pyReplaceAux, fmtRun]
  | succ n ih =>
    intro l1 hlen hcl out
    by_cases hpre : srcId.isPrefixOf l1 = true
    · obtain ⟨q, hq⟩ := (isPrefixOf_iff_exists srcId l1).mp hpre
      subst hq
      have hqc : '}' ∉ q := fun e => hcl (List.mem_append_right _ e)
      have hqlen : q.length ≤ n := by
        have := List.length_append srcId q
        cases srcId with
        | nil => exact absurd rfl hid
        | cons a as => simp at hlen this; omega
      rw [dupOpen_append, dupOpen_no_open srcId hidO,
          pyReplaceAux_match srcId _ _ hid, pyReplaceAux_match srcId _ _ hid]
      have hshape : chars "\x7blanguage\x7d" ++ pyReplaceAux srcId (chars "\x7blanguage\x7d") (dupOpen q) 0
          = '{' :: (chars "language" ++ '}' :: pyReplaceAux srcId (chars "\x7blanguage\x7d") (dupOpen q) 0) := rfl
      rw [hshape,
          fmtRun_placeholder m (chars "language") L (by decide) (by decide) (by decide) hm out _,
          ih q hqlen hqc (out ++ L)]
      simp
    · have hpre' : srcId.isPrefixOf l1 = false := bool_not_true hpre
      cases l1 with
      | nil => simp [dupOpen, pyReplaceAux, fmtRun]
      | cons c t =>
        have htc : '}' ∉ t := fun e => hcl (List.mem_cons_of_mem _ e)
        have htlen : t.length ≤ n := by simp at hlen; omega
        have hcc : c ≠ '}' := fun e => hcl (by simp [e])
        by_cases hc : c = '{'
        · subst hc
          have hsp : ∀ u : Str, srcId.isPrefixOf ('{' :: u) = false := by
            intro u
            cases srcId with
            | nil => exact absurd rfl hid
            | cons a as =>
              have ha : a ≠ '{' := fun e => hidO (by simp [e])
              have ha' : (a == '{') = false := by simp [ha]
              simp [List.isPrefixOf, ha']
          rw [show dupOpen ('{' :: t) = '{' :: '{' :: dupOpen t from by simp [dupOpen]]
          rw [pyReplaceAux_cons_nomatch srcId _ _ _ (hsp ('{' :: dupOpen t)),
              pyReplaceAux_cons_nomatch srcId _ _ _ (hsp (dupOpen t)),
              pyReplaceAux_cons_nomatch srcId _ _ _ (hsp t)]
          rw [fmtRun_cons_some m _ _ _ _ (fmtStep_lit_open m out),
              fmtRun_cons_some m _ _ _ _ (fmtStep_open_open m out),
              ih t htlen htc (out ++ ['{'])]
          simp
        · rw [show dupOpen (c :: t) = c :: dupOpen t from by simp [dupOpen, hc]]
          have hnm : srcId.isPrefixOf (c :: dupOpen t) = false := by
            have := isPrefixOf_dupOpen (c :: t) srcId hidO
            rw [show dupOpen (c :: t) = c :: dupOpen t from by simp [dupOpen, hc]] at this
            rw [this, hpre']
          rw [pyReplaceAux_cons_nomatch srcId _ _ _ hnm,
              pyReplaceAux_cons_nomatch srcId _ _ _ hpre',
              fmtRun_cons_some m _ _ _ _ (fmtStep_lit_char m out c hc hcc),
              ih t htlen htc (out ++ [c])]
          simp

/-- Statement-side predicate for C2/C9: the line is handled by `parse_source`
without being an assignment — it either lacks `=` or `"`, or its first `"`
after the first `=` exists and is also the last `"` of the line (the warn
case).  Lines whose only `"` characters precede the first `=` are excluded:
on those `parse_source` raises `ValueError`. -/
def isHandledNonAssign (ℓ : Str) : Bool :=
  let line := escapeFull ℓ
  if hasChar '=' line && hasChar '"' line then
    match findIdx '=' line with
    | none => false
    | some i1 =>
      match findIdxFrom '"' (i1 + 1) line with
      | none => false
      | some i2 =>
        match rfindIdx '"' line with
        | none => false
        | some i3 => i2 == i3
  else true

theorem parseLine_nonassign (st : PSt) (ℓ : Str) (h : isHandledNonAssign ℓ = true) :
    ∃ st', parseLine st ℓ = some st' ∧ st'.out = st.out ++ escB ℓ ∧ st'.tdict = st.tdict := by
  simp only [isHandledNonAssign] at h
  simp only [parseLine]
  cases hg : (hasChar '=' (escapeFull ℓ) && hasChar '"' (escapeFull ℓ)) with
  | false =>
    simp only [Bool.false_eq_true, if_false]
    split
    · refine ⟨_, rfl, ?_, ?_⟩ <;> simp [apply_ite PSt.out, apply_ite PSt.tdict, escapeFull_eq_escB]
    · refine ⟨_, rfl, ?_, ?_⟩ <;> simp [apply_ite PSt.out, apply_ite PSt.tdict, escapeFull_eq_escB]
  | true =>
    rw [hg, if_pos rfl] at h
    rw [if_pos rfl]
    cases hf1 : findIdx '=' (escapeFull ℓ) with
    | none => rw [hf1] at h; simp at h
    | some i1 =>
      rw [hf1] at h
      dsimp only at h ⊢
      cases hf2 : findIdxFrom '"' (i1 + 1) (escapeFull ℓ) with
      | none => rw [hf2] at h; simp at h
      | some i2 =>
        rw [hf2] at h
        dsimp only at h ⊢
        cases hf3 : rfindIdx '"' (escapeFull ℓ) with
        | none => rw [hf3] at h; simp at h
        | some i3 =>
          rw [hf3] at h
          dsimp only at h ⊢
          have hi : i2 = i3 := by simpa using h
          rw [if_pos hi]
          refine ⟨_, rfl, ?_, ?_⟩ <;> simp [escapeFull_eq_escB]

theorem parseLines_nonassign (ls : List Str) :
    ∀ st : PSt, (∀ ℓ ∈ ls, isHandledNonAssign ℓ = true) →
      ∃ st', parseLines st ls = some st' ∧
        st'.out = st.out ++ (ls.map escB).flatten ∧ st'.tdict = st.tdict := by
  induction ls with
  | nil => intro st _; exact ⟨st, rfl, by simp, rfl⟩
  | cons ℓ t ih =>
    intro st h
    obtain ⟨st1, h1, h1o, h1d⟩ := parseLine_nonassign st ℓ (h ℓ (by simp))
    obtain ⟨st2, h2, h2o, h2d⟩ := ih st1 (fun x hx => h x (List.mem_cons_of_mem _ hx))
    refine ⟨st2, ?_, ?_, ?_⟩
    · show (match parseLine st ℓ with | some s => parseLines s t | none => none) = some st2
      rw [h1]
      exact h2
    · rw [h2o, h1o]
      simp
    · rw [h2d, h1d]

theorem fmtRun_escB_join (m : Str → Option Str) (ls : List Str) :
    ∀ out, fmtRun m ⟨out, .lit⟩ ((ls.map escB).flatten) = some ⟨out ++ ls.flatten, .lit⟩ := by
  induction ls with
  | nil => intro out; simp [fmtRun]
  | cons ℓ t ih =>
    intro out
    simp only [List.map_cons, List.flatten_cons]
    rw [fmtRun_append, fmtRun_escB m ℓ out]
    simp [ih (out ++ ℓ)]

/-- C2 (amended): for a script file whose first line contains no right brace
and whose later lines each either lack `=` or `"` or are warn lines (their
first `"` after the first `=` is also their last `"`), and a source-language
id that is non-empty and brace-free, `parse_source` yields an empty mapping
and a template whose rendering under the mapping assigning `L` to `language`
is byte-identical to the original file content with every occurrence of the
source id in line 1 replaced by `L`.  The claim as stated fails when line 1
contains a right brace (rendering raises a format error, the first line is
only `\x7b`-escaped) or when a later line has `=` and `"` but no `"` after
its first `=` (the parse raises `ValueError`). -/
theorem c2_roundtrip_no_assignments (srcId l1 L : Str) (body : List Str)
    (hid : srcId ≠ []) (hidO : '{' ∉ srcId) (hidC : '}' ∉ srcId)
    (h1 : '}' ∉ l1)
    (hbody : ∀ ℓ ∈ body, isHandledNonAssign ℓ = true) :
    ∃ tpl, parseSourceLines srcId l1 body = some (tpl, []) ∧
      renderTemplate (dget [(chars "language", L)]) tpl
        = some (pyReplace l1 srcId L ++ body.flatten) := by
  have hm : dget [(chars "language", L)] (chars "language") = some L := by
    simp [dget, List.find?]
  obtain ⟨st', hp, hout, hdict⟩ :=
    parseLines_nonassign body
      { out := parseFirstLine srcId l1, tdict := [], is_valid := false,
        key := [], text := [], warnings := 0 } hbody
  refine ⟨st'.out, ?_, ?_⟩
  · simp only [parseSourceLines]
    rw [hp]
    simp [hdict]
  · rw [hout]
    simp only [parseFirstLine]
    rw [pyReplace_open, pyReplace_eq_aux _ _ _ hid]
    rw [renderTemplate, fmtRun_append,
        fmtRun_firstLine (dget [(chars "language", L)]) srcId L hid hidO hidC hm
          l1.length l1 le_rfl h1 []]
    simp only [Option.some_bind]
    rw [fmtRun_escB_join]
    simp [pyReplace_eq_aux l1 srcId L hid]

theorem c2_roundtrip_witness :
    ((chars "EN" : Str) ≠ []) ∧ ('{' ∉ chars "EN") ∧ ('}' ∉ chars "EN") ∧
    ('}' ∉ chars "Challenge_EN = \x7b\n") ∧
    (∀ ℓ ∈ [chars "    -- comment\n", chars "\x7d\n"], isHandledNonAssign ℓ = true) ∧
    (∃ tpl, parseSourceLines (chars "EN") (chars "Challenge_EN = \x7b\n")
        [chars "    -- comment\n", chars "\x7d\n"] = some (tpl, []) ∧
      renderTemplate (dget [(chars "language", chars "FR")]) tpl
        = some (pyReplace (chars "Challenge_EN = \x7b\n") (chars "EN") (chars "FR")
                ++ ([chars "    -- comment\n", chars "\x7d\n"] : List Str).flatten)) :=
  ⟨by decide, by decide, by decide, by decide, by decide,
   c2_roundtrip_no_assignments (chars "EN") (chars "Challenge_EN = \x7b\n") (chars "FR")
     [chars "    -- comment\n", chars "\x7d\n"]
     (by decide) (by decide) (by decide) (by decide) (by decide)⟩

/-- Counterexample to C2 as stated: the one-line file `X_EN = \x7b \x7d`
has no assignment lines and an empty extracted mapping, yet rendering the
template with the language mapping fails (`none`, a Python `ValueError` from
`format_map`) instead of returning the original text with the id replaced,
because line 1's `\x7d` is never escaped (line 128 only doubles `\x7b`). -/
theorem c2_render_error_counterexample :
    (parseSourceLines (chars "EN") (chars "X_EN = \x7b \x7d\n") []).map Prod.snd = some [] ∧
    (parseSourceLines (chars "EN") (chars "X_EN = \x7b \x7d\n") []).bind
      (fun r => renderTemplate (dget [(chars "language", chars "FR")]) r.1) = none :=
  ⟨by decide, by decide⟩

theorem foldlM_delete_all (g : List FEffect → Str → Option (List FEffect))
    (hg : ∀ acc l, g acc l = some (acc ++ [FEffect.delete l])) (langs : List Str) :
    ∀ acc, langs.foldlM g acc = some (acc ++ langs.map (fun l => FEffect.delete l)) := by
  induction langs with
  | nil => intro acc; simp
  | cons l t ih =>
    intro acc
    rw [List.foldlM_cons, hg acc l]
    show t.foldlM g (acc ++ [FEffect.delete l]) = _
    rw [ih (acc ++ [FEffect.delete l])]
    simp

/-- C9 (amended): if every line after the first of an existing source file
either lacks `=` or `"` or is a warn line (no two `"` after its first `=`, but
at least one), `parse_source` returns an empty extracted mapping and
`translate_main` takes the deletion branch for every language, writing
nothing.  The claim as stated fails on a line whose only `"` precedes its
first `=`: there `parse_source` raises `ValueError` instead of returning. -/
theorem c9_empty_mapping_deletes (f : Str → Str) (srcId l1 : Str) (body : List Str)
    (langs : List Str) (targets : Str → Option (List Str))
    (hbody : ∀ ℓ ∈ body, isHandledNonAssign ℓ = true) :
    ∃ tpl, parseSourceLines srcId l1 body = some (tpl, []) ∧
      translateMainFile f srcId (some (l1, body)) langs targets
        = some (langs.map (fun l => FEffect.delete l)) := by
  obtain ⟨st', hp, hout, hdict⟩ :=
    parseLines_nonassign body
      { out := parseFirstLine srcId l1, tdict := [], is_valid := false,
        key := [], text := [], warnings := 0 } hbody
  have hps : parseSourceLines srcId l1 body = some (st'.out, []) := by
    simp only [parseSourceLines]
    rw [hp]
    simp [hdict]
  refine ⟨st'.out, hps, ?_⟩
  simp only [translateMainFile]
  rw [hps]
  exact foldlM_delete_all _ (fun acc l => by simp) langs []

/-- Counterexample to C9 as stated: the file with body line `"a=b` contains
no assignment line, but `parse_source` raises `ValueError` (`none`) rather
than returning an empty mapping, and `translate_main` aborts rather than
deleting the target files. -/
theorem c9_parse_crash_counterexample :
    parseSourceLines (chars "EN") (chars "X_EN\n") [chars "\"a=b\n"] = none ∧
    translateMainFile (fun s => s) (chars "EN") (some (chars "X_EN\n", [chars "\"a=b\n"]))
      [chars "FR"] (fun _ => none) = none :=
  ⟨by decide, by decide⟩

/-- C6: when the source file is absent (`parse_source` returns
`(None, None)`), `translate_main` deletes the target file of every language
instead of writing; and the deletion (`unlink(missing_ok=True)`) is total:
on a file system without the file it is a no-op rather than an error, and
with the file it removes exactly that file. -/
theorem c6_missing_source_deletes (f : Str → Str) (srcId : Str) (langs : List Str)
    (targets : Str → Option (List Str)) :
    translateMainFile f srcId none langs targets
      = some (langs.map (fun l => FEffect.delete l)) ∧
    (∀ (fs : FS) (p : Str), fsHas fs p = false → applyEffect fs (FEffect.delete p) = some fs) ∧
    (∀ (fs : FS) (p : Str), fsHas fs p = true →
      applyEffect fs (FEffect.delete p) = some (fs.filter (fun q => !(q.1 = p)))) := by
  refine ⟨rfl, ?_, ?_⟩
  · intro fs p h
    simp [applyEffect, unlinkPy, h]
  · intro fs p h
    simp [applyEffect, unlinkPy, h]

theorem c6_missing_source_witness :
    translateMainFile (fun s => s) (chars "EN") none [chars "FR", chars "DE"] (fun _ => none)
      = some [FEffect.delete (chars "FR"), FEffect.delete (chars "DE")] ∧
    (fsHas [] (chars "FR") = false) ∧
    applyEffect [] (FEffect.delete (chars "FR")) = some [] :=
  ⟨(c6_missing_source_deletes (fun s => s) (chars "EN") [chars "FR", chars "DE"] (fun _ => none)).1,
   by decide,
   (c6_missing_source_deletes (fun s => s) (chars "EN") [chars "FR", chars "DE"] (fun _ => none)).2.1 [] (chars "FR") (by decide)⟩

theorem c9_empty_mapping_witness :
    (∀ ℓ ∈ [chars "-- x\n"], isHandledNonAssign ℓ = true) ∧
    (∃ tpl, parseSourceLines (chars "EN") (chars "X_EN\n") [chars "-- x\n"] = some (tpl, []) ∧
      translateMainFile (fun s => s) (chars "EN") (some (chars "X_EN\n", [chars "-- x\n"]))
        [chars "FR"] (fun _ => none) = some [FEffect.delete (chars "FR")]) :=
  ⟨by decide,
   c9_empty_mapping_deletes (fun s => s) (chars "EN") (chars "X_EN\n") [chars "-- x\n"] [chars "FR"]
     (fun _ => none) (by decide)⟩

theorem dmem_cons (p : Str × Str) (t : Dict) (k : Str) :
    dmem (p :: t) k = ((p.1 = k : Bool) || dmem t k) := by
  simp [dmem]

theorem dget_cons (p : Str × Str) (t : Dict) (k : Str) :
    dget (p :: t) k = if p.1 = k then some p.2 else dget t k := by
  by_cases h : p.1 = k
  · simp [dget, List.find?, h]
  · simp [dget, List.find?, h]

theorem dget_map_update (d : Dict) (k v k' : Str) (h : k' ≠ k) :
    dget (d.map (fun p => if p.1 = k then (k, v) else p)) k' = dget d k' := by
  induction d with
  | nil => rfl
  | cons p t ih =>
    simp only [List.map_cons]
    by_cases hp : p.1 = k
    · rw [if_pos hp, dget_cons, dget_cons]
      have h1 : ¬((k, v).1 = k') := fun e => h e.symm
      have h2 : ¬(p.1 = k') := by rw [hp]; exact fun e => h e.symm
      rw [if_neg h1, if_neg h2, ih]
    · rw [if_neg hp, dget_cons, dget_cons, ih]

theorem dget_append_single_ne (d : Dict) (k v k' : Str) (h : k' ≠ k) :
    dget (d ++ [(k, v)]) k' = dget d k' := by
  induction d with
  | nil =>
    show dget [(k, v)] k' = dget [] k'
    rw [dget_cons, if_neg (show ¬((k, v).1 = k') from fun e => h e.symm)]
  | cons p t ih => rw [List.cons_append, dget_cons, dget_cons, ih]

theorem dget_dset_ne (d : Dict) (k v k' : Str) (h : k' ≠ k) :
    dget (dset d k v) k' = dget d k' := by
  rw [dset]
  by_cases hm : dmem d k = true
  · rw [if_pos hm, dget_map_update d k v k' h]
  · rw [if_neg hm, dget_append_single_ne d k v k' h]

theorem dget_dset_self (d : Dict) (k v : Str) : dget (dset d k v) k = some v := by
  rw [dset]
  by_cases h : dmem d k = true
  · rw [if_pos h]
    induction d with
    | nil => simp [dmem] at h
    | cons p t ih =>
      simp only [List.map_cons]
      by_cases hp : p.1 = k
      · rw [if_pos hp, dget_cons]
        simp
      · rw [if_neg hp, dget_cons, if_neg hp]
        rw [dmem_cons] at h
        simp only [hp] at h
        exact ih (by simpa using h)
  · rw [if_neg h]
    induction d with
    | nil =>
      show dget [(k, v)] k = some v
      rw [dget_cons]
      simp
    | cons p t ih =>
      have hp : ¬(p.1 = k) := by
        intro e
        exact h (by rw [dmem_cons]; simp [e])
      have ht : ¬dmem t k = true := by
        intro e
        exact h (by rw [dmem_cons]; simp [e])
      rw [List.cons_append, dget_cons, if_neg hp]
      exact ih ht

theorem dmem_map_update (d : Dict) (k v k' : Str) :
    dmem (d.map (fun p => if p.1 = k then (k, v) else p)) k' = dmem d k' := by
  induction d with
  | nil => rfl
  | cons p t ih =>
    simp only [List.map_cons]
    by_cases hp : p.1 = k
    · rw [if_pos hp, dmem_cons, dmem_cons, ih, hp]
    · rw [if_neg hp, dmem_cons, dmem_cons, ih]

theorem dmem_dset_iff (d : Dict) (k v k' : Str) :
    dmem (dset d k v) k' = true ↔ k' = k ∨ dmem d k' = true := by
  rw [dset]
  by_cases hm : dmem d k = true
  · rw [if_pos hm, dmem_map_update]
    constructor
    · exact fun h => Or.inr h
    · rintro (h | h)
      · rw [h]; exact hm
      · exact h
  · rw [if_neg hm]
    have hsplit : dmem (d ++ [(k, v)]) k' = (dmem d k' || decide (k = k')) := by
      simp [dmem, List.any_append]
    rw [hsplit]
    simp only [Bool.or_eq_true, decide_eq_true_eq]
    constructor
    · rintro (h | h)
      · exact Or.inr h
      · exact Or.inl h.symm
    · rintro (h | h)
      · exact Or.inr h.symm
      · exact Or.inl h

theorem dmem_of_dget (d : Dict) (k v : Str) (h : dget d k = some v) : dmem d k = true := by
  induction d with
  | nil => simp [dget] at h
  | cons p t ih =>
    rw [dget_cons] at h
    rw [dmem_cons]
    by_cases hp : p.1 = k
    · simp [hp]
    · rw [if_neg hp] at h
      simp [ih h]

theorem translateSingle_mono (f : Str → Str) (S : Dict) (k : Str) :
    ∀ tr cs, dmem tr k = true → dmem (S.foldl (tsStep f) (tr, cs)).1 k = true := by
  induction S with
  | nil => intro tr cs h; exact h
  | cons p t ih =>
    intro tr cs h
    rw [List.foldl_cons, tsStep]
    by_cases hm : dmem tr p.1 = true
    · rw [if_pos hm]
      exact ih tr cs h
    · rw [if_neg hm]
      exact ih _ _ ((dmem_dset_iff tr p.1 _ k).mpr (Or.inr h))

theorem translateSingle_covers (f : Str → Str) (S : Dict) (k : Str) :
    ∀ tr cs, dmem S k = true → dmem (S.foldl (tsStep f) (tr, cs)).1 k = true := by
  induction S with
  | nil => intro tr cs h; simp [dmem] at h
  | cons p t ih =>
    intro tr cs h
    rw [List.foldl_cons, tsStep]
    by_cases hk : p.1 = k
    · by_cases hm : dmem tr p.1 = true
      · rw [if_pos hm]
        exact translateSingle_mono f t k tr cs (hk ▸ hm)
      · rw [if_neg hm]
        exact translateSingle_mono f t k _ _ ((dmem_dset_iff tr p.1 _ k).mpr (Or.inl hk.symm))
    · have ht : dmem t k = true := by
        rw [dmem_cons] at h
        simpa [hk] using h
      by_cases hm : dmem tr p.1 = true
      · rw [if_pos hm]; exact ih tr cs ht
      · rw [if_neg hm]; exact ih _ _ ht

theorem translateSingle_keys (f : Str → Str) (S : Dict) (k : Str) :
    ∀ tr cs, dmem (S.foldl (tsStep f) (tr, cs)).1 k = true →
      dmem tr k = true ∨ dmem S k = true := by
  induction S with
  | nil => intro tr cs h; exact Or.inl h
  | cons p t ih =>
    intro tr cs h
    rw [List.foldl_cons, tsStep] at h
    by_cases hm : dmem tr p.1 = true
    · rw [if_pos hm] at h
      rcases ih tr cs h with h' | h'
      · exact Or.inl h'
      · exact Or.inr (by rw [dmem_cons]; simp [h'])
    · rw [if_neg hm] at h
      rcases ih _ _ h with h' | h'
      · rcases (dmem_dset_iff tr p.1 _ k).mp h' with h'' | h''
        · exact Or.inr (by rw [dmem_cons]; simp [h''.symm])
        · exact Or.inl h''
      · exact Or.inr (by rw [dmem_cons]; simp [h'])

theorem translateSingle_dget_mem (f : Str → Str) (S : Dict) (k : Str) :
    ∀ tr cs, dmem tr k = true →
      dget (S.foldl (tsStep f) (tr, cs)).1 k = dget tr k := by
  induction S with
  | nil => intro tr cs _; rfl
  | cons p t ih =>
    intro tr cs h
    rw [List.foldl_cons, tsStep]
    by_cases hm : dmem tr p.1 = true
    · rw [if_pos hm]
      exact ih tr cs h
    · rw [if_neg hm]
      have hk : k ≠ p.1 := fun e => hm (e ▸ h)
      rw [ih _ _ ((dmem_dset_iff tr p.1 _ k).mpr (Or.inr h)),
          dget_dset_ne tr p.1 _ k hk]

/-- Statement-side helper for C4: the normalized key an
`import_translations` line would produce, when the line contains `=`
and `"` (the key is computed before any quote indices, line 179). -/
def lineImportKey (ℓ : Str) : Option Str :=
  if hasChar '=' ℓ && hasChar '"' ℓ then
    (findIdx '=' ℓ).map (fun i1 => pyReplace (pyStrip (ℓ.take i1)) (chars ".") (chars "-"))
  else none

theorem importLine_preserves (st st' : ISt) (ℓ : Str)
    (h : importLine st ℓ = some st')
    (hk : lineImportKey ℓ ≠ some (chars "language")) :
    dget st'.tr (chars "language") = dget st.tr (chars "language") := by
  rw [lineImportKey] at hk
  simp only [importLine] at h
  cases hg : (hasChar '=' ℓ && hasChar '"' ℓ) with
  | false =>
    rw [hg] at h hk
    simp only [Bool.false_eq_true, if_false] at h
    split at h
    · simp only [Option.map_some', Option.some.injEq] at h
      subst h
      simp [apply_ite ISt.tr]
    · simp only [Option.map_some', Option.some.injEq] at h
      subst h
      simp [apply_ite ISt.tr]
  | true =>
    rw [hg] at h hk
    simp only [if_true] at h
    cases hf1 : findIdx '=' ℓ with
    | none => rw [hf1] at h; simp at h
    | some i1 =>
      rw [hf1] at h hk
      simp only [Option.map_some'] at hk
      have hkey : pyReplace (pyStrip (ℓ.take i1)) (chars ".") (chars "-") ≠ chars "language" := by
        intro e
        exact hk (by rw [e]; simp)
      dsimp only at h
      cases hf2 : findIdxFrom '"' (i1 + 1) ℓ with
      | none => rw [hf2] at h; simp at h
      | some i2 =>
        rw [hf2] at h
        dsimp only at h
        cases hf3 : rfindIdx '"' ℓ with
        | none => rw [hf3] at h; simp at h
        | some i3 =>
          rw [hf3] at h
          dsimp only at h
          simp only [Option.map_some', Option.some.injEq] at h
          subst h
          have hne : chars "language" ≠ pyReplace (pyStrip (ℓ.take i1)) (chars ".") (chars "-") :=
            fun e => hkey e.symm
          simp [apply_ite ISt.tr, dget_dset_ne st.tr _ _ _ hne]

theorem importLines_preserves (ls : List Str) :
    ∀ st st' : ISt, importLines st ls = some st' →
      (∀ ℓ ∈ ls, lineImportKey ℓ ≠ some (chars "language")) →
      dget st'.tr (chars "language") = dget st.tr (chars "language") := by
  induction ls with
  | nil =>
    intro st st' h _
    cases h
    rfl
  | cons ℓ t ih =>
    intro st st' h hk
    have h' : (match importLine st ℓ with
               | some s => importLines s t
               | none => none) = some st' := h
    cases him : importLine st ℓ with
    | none => rw [him] at h'; simp at h'
    | some st1 =>
      rw [him] at h'
      have h1 := importLine_preserves st st1 ℓ him (hk ℓ (by simp))
      have h2 := ih st1 st' h' (fun x hx => hk x (List.mem_cons_of_mem _ hx))
      rw [h2, h1]

/-- C4 (amended): `get_translations` first binds the reserved key
`language` to the target language's id and that binding survives
`translate_single` (which never overwrites an existing key), but it does NOT
survive arbitrary target-file contents: it holds provided no line of the
parsed target file is an `=`-and-`"` line whose normalized key (text before
the first `=`, trimmed, `.` to `-`) is exactly `language`; such a line
overwrites the binding (line 181). -/
theorem c4_language_key_binding (f : Str → Str) (S : Dict) (trId : Str) (ls : List Str)
    (final : Dict) (calls : List PCall)
    (hG : getTranslations f S trId (some ls) = some (final, calls))
    (hk : ∀ ℓ ∈ ls.drop 1, lineImportKey ℓ ≠ some (chars "language")) :
    dget final (chars "language") = some trId := by
  simp only [getTranslations] at hG
  cases hD : importTranslations [(chars "language", trId)] ls with
  | none => rw [hD] at hG; simp at hG
  | some D =>
    rw [hD] at hG
    simp only [Option.map_some', Option.some.injEq] at hG
    simp only [importTranslations] at hD
    cases hr : importLines ⟨[(chars "language", trId)], false, [], []⟩ (ls.drop 1) with
    | none => rw [hr] at hD; simp at hD
    | some res =>
      rw [hr] at hD
      simp only [Option.map_some', Option.some.injEq] at hD
      have hbase : dget ([(chars "language", trId)] : Dict) (chars "language") = some trId := by
        rw [dget_cons]
        simp
      have hpres := importLines_preserves (ls.drop 1) _ _ hr hk
      have hD' : dget D (chars "language") = some trId := by
        rw [← hD, hpres]
        exact hbase
      have hmem : dmem D (chars "language") = true := dmem_of_dget D _ _ hD'
      have h1 : final = (translateSingle f S D).1 := by rw [hG]
      have hfin : dget final (chars "language") = dget D (chars "language") := by
        rw [h1, translateSingle]
        exact translateSingle_dget_mem f S (chars "language") D [] hmem
      rw [hfin, hD']

theorem c4_language_key_binding_witness :
    (getTranslations (fun s => s) [(chars "A", chars "x")] (chars "FR")
        (some [chars "hdr\n", chars "A = \"y\"\n"])
      = some ([(chars "language", chars "FR"), (chars "A", chars "y")], [])) ∧
    (∀ ℓ ∈ ([chars "hdr\n", chars "A = \"y\"\n"] : List Str).drop 1,
      lineImportKey ℓ ≠ some (chars "language")) ∧
    dget [(chars "language", chars "FR"), (chars "A", chars "y")] (chars "language")
      = some (chars "FR") :=
  ⟨by decide, by decide,
   c4_language_key_binding (fun s => s) [(chars "A", chars "x")] (chars "FR")
     [chars "hdr\n", chars "A = \"y\"\n"]
     [(chars "language", chars "FR"), (chars "A", chars "y")] []
     (by decide) (by decide)⟩

/-- Counterexample to C4 as stated: a target file containing the line
`language = "XX"` makes `get_translations` return a mapping whose
`language` key is bound to `XX`, not to the target id `FR` — the parsed
target file CAN override the reserved binding. -/
theorem c4_language_overwritten_counterexample :
    (getTranslations (fun s => s) [] (chars "FR")
        (some [chars "hdr\n", chars "language = \"XX\"\n"])).map (fun r => dget r.1 (chars "language"))
      = some (some (chars "XX")) ∧
    some (some (chars "XX")) ≠ some (some (chars "FR")) :=
  ⟨by decide, by decide⟩

theorem importLine_mono (st st' : ISt) (ℓ : Str) (k : Str)
    (h : importLine st ℓ = some st') (hm : dmem st.tr k = true) :
    dmem st'.tr k = true := by
  simp only [importLine] at h
  rw [Option.map_eq_some'] at h
  obtain ⟨u, hu, hfu⟩ := h
  have htr : st'.tr = u.tr := by
    rw [← hfu]
    split <;> rfl
  rw [htr]
  cases hg : (hasChar '=' ℓ && hasChar '"' ℓ) with
  | false =>
    rw [hg] at hu
    simp only [Bool.false_eq_true, if_false] at hu
    split at hu <;> (injection hu with hu2; rw [← hu2]; exact hm)
  | true =>
    rw [hg, if_pos rfl] at hu
    cases hf1 : findIdx '=' ℓ with
    | none => rw [hf1] at hu; simp at hu
    | some i1 =>
      rw [hf1] at hu
      dsimp only at hu
      cases hf2 : findIdxFrom '"' (i1 + 1) ℓ with
      | none => rw [hf2] at hu; simp at hu
      | some i2 =>
        rw [hf2] at hu
        dsimp only at hu
        cases hf3 : rfindIdx '"' ℓ with
        | none => rw [hf3] at hu; simp at hu
        | some i3 =>
          rw [hf3] at hu
          dsimp only at hu
          injection hu with hu2
          rw [← hu2]
          exact (dmem_dset_iff st.tr _ _ k).mpr (Or.inr hm)

theorem importLines_mono (ls : List Str) :
    ∀ (st st' : ISt) (k : Str), importLines st ls = some st' →
      dmem st.tr k = true → dmem st'.tr k = true := by
  induction ls with
  | nil =>
    intro st st' k h hm
    cases h
    exact hm
  | cons ℓ t ih =>
    intro st st' k h hm
    have h' : (match importLine st ℓ with
               | some s => importLines s t
               | none => none) = some st' := h
    cases him : importLine st ℓ with
    | none => rw [him] at h'; simp at h'
    | some st1 =>
      rw [him] at h'
      exact ih st1 st' k h' (importLine_mono st st1 ℓ k him hm)

/-- C3 (amended): the mapping returned by `get_translations` covers every
key of the source mapping `S`, RETAINS every key of the imported target-file
dictionary `D` even when absent from `S` (`get_translations` never prunes),
always contains the reserved `language` key, and contains nothing else:
every key of the result comes from `D` or from `S`.  Stale target-file keys
disappear from the written file only because the rendered template
references just `S`'s keys, not because `get_translations` drops them. -/
theorem c3_merged_mapping_keys (f : Str → Str) (S : Dict) (trId : Str) (ls : List Str)
    (D final : Dict) (calls : List PCall)
    (hD : importTranslations [(chars "language", trId)] ls = some D)
    (hG : getTranslations f S trId (some ls) = some (final, calls)) :
    (∀ k, dmem S k = true → dmem final k = true) ∧
    (∀ k, dmem D k = true → dmem final k = true) ∧
    dmem final (chars "language") = true ∧
    (∀ k, dmem final k = true → dmem D k = true ∨ dmem S k = true) := by
  simp only [getTranslations] at hG
  rw [hD] at hG
  simp only [Option.map_some', Option.some.injEq] at hG
  have h1 : final = (translateSingle f S D).1 := by rw [hG]
  have hret : ∀ k, dmem D k = true → dmem final k = true := by
    intro k hk
    rw [h1, translateSingle]
    exact translateSingle_mono f S k D [] hk
  have hDlang : dmem D (chars "language") = true := by
    simp only [importTranslations] at hD
    cases hr : importLines ⟨[(chars "language", trId)], false, [], []⟩ (ls.drop 1) with
    | none => rw [hr] at hD; simp at hD
    | some res =>
      rw [hr] at hD
      simp only [Option.map_some', Option.some.injEq] at hD
      rw [← hD]
      exact importLines_mono (ls.drop 1) _ res (chars "language") hr (by simp [dmem])
  refine ⟨?_, hret, hret (chars "language") hDlang, ?_⟩
  · intro k hk
    rw [h1, translateSingle]
    exact translateSingle_covers f S k D [] hk
  · intro k hk
    rw [h1, translateSingle] at hk
    exact translateSingle_keys f S k D [] hk

theorem c3_merged_mapping_keys_witness :
    (importTranslations [(chars "language", chars "FR")]
        [chars "hdr\n", chars "A = \"y\"\n", chars "B = \"z\"\n"]
      = some [(chars "language", chars "FR"), (chars "A", chars "y"), (chars "B", chars "z")]) ∧
    (getTranslations (fun s => s) [(chars "A", chars "x")] (chars "FR")
        (some [chars "hdr\n", chars "A = \"y\"\n", chars "B = \"z\"\n"])
      = some ([(chars "language", chars "FR"), (chars "A", chars "y"), (chars "B", chars "z")], [])) ∧
    ((∀ k, dmem [(chars "A", chars "x")] k = true →
        dmem [(chars "language", chars "FR"), (chars "A", chars "y"), (chars "B", chars "z")] k = true) ∧
     (∀ k, dmem [(chars "language", chars "FR"), (chars "A", chars "y"), (chars "B", chars "z")] k = true →
        dmem [(chars "language", chars "FR"), (chars "A", chars "y"), (chars "B", chars "z")] k = true) ∧
     dmem [(chars "language", chars "FR"), (chars "A", chars "y"), (chars "B", chars "z")]
       (chars "language") = true ∧
     (∀ k, dmem [(chars "language", chars "FR"), (chars "A", chars "y"), (chars "B", chars "z")] k = true →
        dmem [(chars "language", chars "FR"), (chars "A", chars "y"), (chars "B", chars "z")] k = true ∨
          dmem [(chars "A", chars "x")] k = true)) :=
  ⟨by decide, by decide,
   c3_merged_mapping_keys (fun s => s) [(chars "A", chars "x")] (chars "FR")
     [chars "hdr\n", chars "A = \"y\"\n", chars "B = \"z\"\n"]
     [(chars "language", chars "FR"), (chars "A", chars "y"), (chars "B", chars "z")]
     [(chars "language", chars "FR"), (chars "A", chars "y"), (chars "B", chars "z")] []
     (by decide) (by decide)⟩

/-- Counterexample to C3 as stated: with source mapping `\x7bA: x\x7d` and a
target file defining `A = "y"` and `B = "z"`, the merged mapping produced by
`get_translations` still contains the stale key `B` — it is a strict
superset of the source key set plus `language`, contradicting the claimed
pruning. -/
theorem c3_stale_key_retained_counterexample :
    (getTranslations (fun s => s) [(chars "A", chars "x")] (chars "FR")
        (some [chars "hdr\n", chars "A = \"y\"\n", chars "B = \"z\"\n"]))
      = some ([(chars "language", chars "FR"), (chars "A", chars "y"), (chars "B", chars "z")], []) ∧
    dmem [(chars "language", chars "FR"), (chars "A", chars "y"), (chars "B", chars "z")]
      (chars "B") = true :=
  ⟨by decide, by decide⟩

theorem dmem_dset_ne_key (tr : Dict) (k v q : Str) (h : q ≠ k) :
    dmem (dset tr k v) q = dmem tr q := by
  cases hb : dmem tr q with
  | true => exact (dmem_dset_iff tr k v q).mpr (Or.inr hb)
  | false =>
    cases hx : dmem (dset tr k v) q with
    | false => rfl
    | true =>
      rcases (dmem_dset_iff tr k v q).mp hx with h1 | h1
      · exact absurd h1 h
      · simp [h1] at hb

theorem tsStep_shift (f : Str → Str) (S : Dict) :
    ∀ (tr : Dict) (cs : List PCall),
      S.foldl (tsStep f) (tr, cs)
        = ((S.foldl (tsStep f) (tr, [])).1, cs ++ (S.foldl (tsStep f) (tr, [])).2) := by
  induction S with
  | nil => intro tr cs; simp
  | cons p t ih =>
    intro tr cs
    simp only [List.foldl_cons, tsStep]
    cases hm : dmem tr p.1 with
    | true =>
      simp only [hm, if_true]
      exact ih tr cs
    | false =>
      simp only [hm, Bool.false_eq_true, if_false]
      rw [ih (dset tr p.1 (vars_demod (f (vars_mod p.2)))) (cs ++ [PCall.single (vars_mod p.2)]),
          ih (dset tr p.1 (vars_demod (f (vars_mod p.2)))) ([] ++ [PCall.single (vars_mod p.2)])]
      simp

theorem translateSingle_trace (f : Str → Str) :
    ∀ S : Dict, (S.map Prod.fst).Nodup → ∀ tr,
      (translateSingle f S tr).2
        = (S.filter (fun p => !dmem tr p.1)).map (fun p => PCall.single (vars_mod p.2)) := by
  intro S
  induction S with
  | nil => intro _ tr; rfl
  | cons p t ih =>
    intro hnd tr
    have hnd' : (t.map Prod.fst).Nodup := by
      simp only [List.map_cons, List.nodup_cons] at hnd
      exact hnd.2
    have hp : p.1 ∉ t.map Prod.fst := by
      simp only [List.map_cons, List.nodup_cons] at hnd
      exact hnd.1
    rw [translateSingle, List.foldl_cons, List.filter_cons]
    simp only [tsStep]
    cases hm : dmem tr p.1 with
    | true =>
      simp only [hm, if_true, Bool.not_true, Bool.false_eq_true, if_false]
      exact ih hnd' tr
    | false =>
      simp only [hm, Bool.false_eq_true, if_false, Bool.not_false, if_true]
      rw [tsStep_shift f t (dset tr p.1 (vars_demod (f (vars_mod p.2))))
            ([] ++ [PCall.single (vars_mod p.2)])]
      have hih := ih hnd' (dset tr p.1 (vars_demod (f (vars_mod p.2))))
      rw [translateSingle] at hih
      have hfil : t.filter (fun q => !dmem (dset tr p.1 (vars_demod (f (vars_mod p.2)))) q.1)
          = t.filter (fun q => !dmem tr q.1) := by
        apply List.filter_congr
        intro q hq
        have hqne : q.1 ≠ p.1 := fun e => hp (e ▸ List.mem_map_of_mem Prod.fst hq)
        rw [dmem_dset_ne_key tr p.1 _ q.1 hqne]
      rw [hfil] at hih
      simp only [List.nil_append]
      rw [hih]
      simp

theorem dset_fold_not_mem (pairs : List (Str × Str)) (k : Str)
    (h : k ∉ pairs.map Prod.fst) :
    ∀ d : Dict, dget (pairs.foldl (fun d p => dset d p.1 (vars_demod p.2)) d) k = dget d k := by
  induction pairs with
  | nil => intro d; rfl
  | cons p t ih =>
    intro d
    have hk : k ≠ p.1 := fun e => h (by simp [e])
    have ht : k ∉ t.map Prod.fst := fun e => h (by simp [e])
    rw [List.foldl_cons, ih ht, dget_dset_ne d p.1 _ k hk]

theorem fold_zip_get (pairs : List (Str × Str)) :
    (pairs.map Prod.fst).Nodup →
    ∀ (d : Dict) (i : Nat), i < pairs.length →
      dget (pairs.foldl (fun d p => dset d p.1 (vars_demod p.2)) d)
          ((pairs.map Prod.fst).getD i [])
        = some (vars_demod ((pairs.map Prod.snd).getD i [])) := by
  induction pairs with
  | nil => intro _ d i h; simp at h
  | cons p t ih =>
    intro hnd d i hi
    have hnd' : (t.map Prod.fst).Nodup := by
      simp only [List.map_cons, List.nodup_cons] at hnd
      exact hnd.2
    have hp : p.1 ∉ t.map Prod.fst := by
      simp only [List.map_cons, List.nodup_cons] at hnd
      exact hnd.1
    cases i with
    | zero =>
      simp only [List.map_cons, List.getD_cons_zero]
      rw [List.foldl_cons, dset_fold_not_mem t p.1 hp (dset d p.1 (vars_demod p.2)),
          dget_dset_self]
    | succ n =>
      simp only [List.map_cons, List.getD_cons_succ]
      rw [List.foldl_cons]
      exact ih hnd' _ n (by simpa using hi)

/-- C7 (amended): when producing translations for one (file, language)
pair, `get_translations` sends exactly the keys still absent after layering
the existing target file, but one `translate` call per key in source order
(via `translate_single`), not in one batch; the separate `translate_batch`
method — not invoked by `get_translations` — does send exactly the absent
keys' protected texts in one batch call and reassigns the same-length
returned sequence to those keys in the same order, leaving other keys
untouched. -/
theorem c7_provider_calls (f : Str → Str) (g : List Str → List Str) (S : Dict) (trId : Str)
    (ls : List Str) (D final : Dict) (calls : List PCall) (orTexts trTexts : Dict) :
    ((importTranslations [(chars "language", trId)] ls = some D) →
     (getTranslations f S trId (some ls) = some (final, calls)) →
     (S.map Prod.fst).Nodup →
     calls = (S.filter (fun p => !dmem D p.1)).map (fun p => PCall.single (vars_mod p.2)))
    ∧
    (((orTexts.filter (fun p => !dmem trTexts p.1)).map Prod.fst).Nodup →
     (g ((orTexts.filter (fun p => !dmem trTexts p.1)).map (fun p => vars_mod p.2))).length
        = (orTexts.filter (fun p => !dmem trTexts p.1)).length →
     ∃ finalB : Dict,
       translateBatch g orTexts trTexts
         = some (finalB,
             if (orTexts.filter (fun p => !dmem trTexts p.1)).isEmpty then []
             else [PCall.batch ((orTexts.filter (fun p => !dmem trTexts p.1)).map
                     (fun p => vars_mod p.2))]) ∧
       (∀ i, i < (orTexts.filter (fun p => !dmem trTexts p.1)).length →
         dget finalB (((orTexts.filter (fun p => !dmem trTexts p.1)).map Prod.fst).getD i [])
           = some (vars_demod ((g ((orTexts.filter (fun p => !dmem trTexts p.1)).map
               (fun p => vars_mod p.2))).getD i []))) ∧
       (∀ k, k ∉ (orTexts.filter (fun p => !dmem trTexts p.1)).map Prod.fst →
         dget finalB k = dget trTexts k)) := by
  constructor
  · intro hD hG hnd
    simp only [getTranslations] at hG
    rw [hD] at hG
    simp only [Option.map_some', Option.some.injEq] at hG
    have h2 : calls = (translateSingle f S D).2 := by rw [hG]
    rw [h2, translateSingle_trace f S hnd D]
  · intro hnd hlen
    simp only [translateBatch]
    cases hcase : orTexts.filter (fun p => !dmem trTexts p.1) with
    | nil =>
      refine ⟨trTexts, by simp, ?_, ?_⟩
      · intro i hi
        simp at hi
      · intro k _
        rfl
    | cons m0 mrest =>
      rw [hcase] at hnd hlen
      have hempty : (((m0 :: mrest).map (fun p => vars_mod p.2)).isEmpty) = false := rfl
      rw [hempty]
      simp only [Bool.false_eq_true, if_false]
      have hklen : ((m0 :: mrest).map Prod.fst).length
          ≤ (g ((m0 :: mrest).map (fun p => vars_mod p.2))).length := by
        rw [hlen]
        simp
      rw [if_pos hklen]
      set keys := (m0 :: mrest).map Prod.fst with hkeys
      set ts := g ((m0 :: mrest).map (fun p => vars_mod p.2)) with hts
      have hkl : keys.length = mrest.length + 1 := by simp [hkeys]
      have htl : ts.length = mrest.length + 1 := by rw [hts, hlen]; simp
      have hmf : (keys.zip ts).map Prod.fst = keys :=
        List.map_fst_zip keys ts (by omega)
      have hms : (keys.zip ts).map Prod.snd = ts :=
        List.map_snd_zip keys ts (by omega)
      have hzl : (keys.zip ts).length = keys.length := by
        rw [List.length_zip]
        omega
      refine ⟨_, rfl, ?_, ?_⟩
      · intro i hi
        have hi' : i < (keys.zip ts).length := by
          rw [hzl, hkl]
          simpa using hi
        have := fold_zip_get (keys.zip ts) (by rw [hmf]; exact hnd) trTexts i hi'
        rw [hmf, hms] at this
        exact this
      · intro k hk
        exact dset_fold_not_mem (keys.zip ts) k (by rw [hmf]; exact hk) trTexts

/-- Counterexample to C7 as stated: with two keys missing,
`get_translations` issues two separate single-translate provider calls, not
one batch call. -/
theorem c7_single_calls_counterexample :
    (getTranslations (fun s => s) [(chars "A", chars "x"), (chars "B", chars "y")]
        (chars "FR") none).map (fun r => r.2)
      = some [PCall.single (chars "x"), PCall.single (chars "y")] ∧
    (getTranslations (fun s => s) [(chars "A", chars "x"), (chars "B", chars "y")]
        (chars "FR") none).map (fun r =>
          match r.2 with
          | [PCall.batch _] => true
          | _ => false)
      = some false :=
  ⟨by decide, by decide⟩

theorem c7_provider_calls_witness :
    (importTranslations [(chars "language", chars "FR")] [chars "hdr\n", chars "A = \"y\"\n"]
       = some [(chars "language", chars "FR"), (chars "A", chars "y")]) ∧
    (getTranslations (fun s => s) [(chars "A", chars "x"), (chars "B", chars "y")] (chars "FR")
        (some [chars "hdr\n", chars "A = \"y\"\n"])
      = some ([(chars "language", chars "FR"), (chars "A", chars "y"), (chars "B", chars "y")],
              [PCall.single (chars "y")])) ∧
    (([(chars "A", chars "x"), (chars "B", chars "y")].map Prod.fst).Nodup) ∧
    (([PCall.single (chars "y")] : List PCall)
       = ([(chars "A", chars "x"), (chars "B", chars "y")].filter
            (fun p => !dmem [(chars "language", chars "FR"), (chars "A", chars "y")] p.1)).map
           (fun p => PCall.single (vars_mod p.2))) ∧
    (∃ finalB : Dict,
       translateBatch (fun vs => vs) [(chars "A", chars "x"), (chars "B", chars "y")]
           [(chars "A", chars "z")]
         = some (finalB,
             if (([(chars "A", chars "x"), (chars "B", chars "y")] : Dict).filter
                   (fun p => !dmem [(chars "A", chars "z")] p.1)).isEmpty then []
             else [PCall.batch ((([(chars "A", chars "x"), (chars "B", chars "y")] : Dict).filter
                     (fun p => !dmem [(chars "A", chars "z")] p.1)).map
                     (fun p => vars_mod p.2))]) ∧
       (∀ i, i < (([(chars "A", chars "x"), (chars "B", chars "y")] : Dict).filter
                   (fun p => !dmem [(chars "A", chars "z")] p.1)).length →
         dget finalB (((([(chars "A", chars "x"), (chars "B", chars "y")] : Dict).filter
               (fun p => !dmem [(chars "A", chars "z")] p.1)).map Prod.fst).getD i [])
           = some (vars_demod (((fun vs => vs)
               ((([(chars "A", chars "x"), (chars "B", chars "y")] : Dict).filter
                   (fun p => !dmem [(chars "A", chars "z")] p.1)).map
                   (fun p => vars_mod p.2))).getD i []))) ∧
       (∀ k, k ∉ (([(chars "A", chars "x"), (chars "B", chars "y")] : Dict).filter
                   (fun p => !dmem [(chars "A", chars "z")] p.1)).map Prod.fst →
         dget finalB k = dget [(chars "A", chars "z")] k)) :=
  ⟨by decide, by decide, by decide,
   (c7_provider_calls (fun s => s) (fun vs => vs) [(chars "A", chars "x"), (chars "B", chars "y")]
      (chars "FR") [chars "hdr\n", chars "A = \"y\"\n"]
      [(chars "language", chars "FR"), (chars "A", chars "y")]
      [(chars "language", chars "FR"), (chars "A", chars "y"), (chars "B", chars "y")]
      [PCall.single (chars "y")]
      [(chars "A", chars "x"), (chars "B", chars "y")] [(chars "A", chars "z")]).1
     (by decide) (by decide) (by decide),
   (c7_provider_calls (fun s => s) (fun vs => vs) [(chars "A", chars "x"), (chars "B", chars "y")]
      (chars "FR") [chars "hdr\n", chars "A = \"y\"\n"]
      [(chars "language", chars "FR"), (chars "A", chars "y")]
      [(chars "language", chars "FR"), (chars "A", chars "y"), (chars "B", chars "y")]
      [PCall.single (chars "y")]
      [(chars "A", chars "x"), (chars "B", chars "y")] [(chars "A", chars "z")]).2
     (by decide) (by decide)⟩

/-- Classification of a line by the shared line-classifier logic
(spec section 4.2): a true assignment, a malformed assignment demoted
to a skip with a warning (`parse_source` only), a skip line or a
continuation line; `none` when the classifier raises `ValueError`. -/
inductive LClass where
  | assign
  | skipMalformed
  | skip
  | cont
deriving DecidableEq

/-- Classification performed by the `parse_source` loop body on the
brace-escaped line (`src/pz_translate.py` lines 133-152). -/
def classifySource (isValid : Bool) (rawLine : Str) : Option LClass :=
  let line := escapeFull rawLine
  if hasChar '=' line && hasChar '"' line then
    match findIdx '=' line with
    | none => none
    | some i1 =>
      match findIdxFrom '"' (i1 + 1) line with
      | none => none
      | some i2 =>
        match rfindIdx '"' line with
        | none => none
        | some i3 => if i2 = i3 then some LClass.skipMalformed else some LClass.assign
  else if containsSub (chars "--") line || (pyStrip line).isEmpty
          || (pyEndsWith (chars "..") (pyStrip line) && !isValid) then some LClass.skip
  else some LClass.cont

/-- Classification performed by the `import_translations` loop body
(`src/pz_translate.py` lines 175-186); it has no malformed case. -/
def classifyImport (isValid : Bool) (line : Str) : Option LClass :=
  if hasChar '=' line && hasChar '"' line then
    match findIdx '=' line with
    | none => none
    | some i1 =>
      match findIdxFrom '"' (i1 + 1) line with
      | none => none
      | some i2 =>
        match rfindIdx '"' line with
        | none => none
        | some _ => some LClass.assign
  else if containsSub (chars "--") line || (pyStrip line).isEmpty
          || (pyEndsWith (chars "..") (pyStrip line) && !isValid) then some LClass.skip
  else some LClass.cont

/-- C8: in both `parse_source` and `import_translations`, after any
processed line the following holds unconditionally: if the line was
classified as a skip (including `parse_source`'s malformed-assignment
demotion), or the processed line's trimmed text does not end with the
continuation marker `..`, then the active flag is false and the pending
key/text state is reset to empty. -/
theorem c8_reset_invariant :
    (∀ (st : PSt) (ℓ : Str) (st₁ : PSt), parseLine st ℓ = some st₁ →
      (classifySource st.is_valid ℓ = some LClass.skip ∨
       classifySource st.is_valid ℓ = some LClass.skipMalformed ∨
       pyEndsWith (chars "..") (pyStrip (escapeFull ℓ)) = false) →
      st₁.is_valid = false ∧ st₁.key = [] ∧ st₁.text = []) ∧
    (∀ (st : ISt) (ℓ : Str) (st₁ : ISt), importLine st ℓ = some st₁ →
      (classifyImport st.is_valid ℓ = some LClass.skip ∨
       pyEndsWith (chars "..") (pyStrip ℓ) = false) →
      st₁.is_valid = false ∧ st₁.key = [] ∧ st₁.text = []) := by
  constructor
  · intro st ℓ st₁ h hcond
    simp only [parseLine] at h
    cases hend : pyEndsWith (chars "..") (pyStrip (escapeFull ℓ)) with
    | false =>
      rw [hend] at h
      simp only [Bool.not_false, Bool.or_true, if_true] at h
      rw [Option.map_eq_some'] at h
      obtain ⟨u, -, hfu⟩ := h
      rw [← hfu]
      exact ⟨rfl, rfl, rfl⟩
    | true =>
      rcases hcond with hcl | hcl | hfls
      rotate_right
      · rw [hend] at hfls; cases hfls
      all_goals {
        simp only [classifySource] at hcl
        cases hg : (hasChar '=' (escapeFull ℓ) && hasChar '"' (escapeFull ℓ)) with
        | true =>
          rw [hg, if_pos rfl] at hcl h
          cases hf1 : findIdx '=' (escapeFull ℓ) with
          | none => rw [hf1] at h; simp at h
          | some i1 =>
            rw [hf1] at hcl h
            dsimp only at hcl h
            cases hf2 : findIdxFrom '"' (i1 + 1) (escapeFull ℓ) with
            | none => rw [hf2] at h; simp at h
            | some i2 =>
              rw [hf2] at hcl h
              dsimp only at hcl h
              cases hf3 : rfindIdx '"' (escapeFull ℓ) with
              | none => rw [hf3] at h; simp at h
              | some i3 =>
                rw [hf3] at hcl h
                dsimp only at hcl h
                by_cases hii : i2 = i3
                · rw [if_pos hii] at h
                  simp only [Option.map_some', Option.some.injEq] at h
                  rw [← h]
                  exact ⟨rfl, rfl, rfl⟩
                · rw [if_neg hii] at hcl
                  simp at hcl
        | false =>
          rw [hg] at hcl h
          simp only [Bool.false_eq_true, if_false] at hcl h
          cases hsk : (containsSub (chars "--") (escapeFull ℓ)
              || (pyStrip (escapeFull ℓ)).isEmpty
              || (pyEndsWith (chars "..") (pyStrip (escapeFull ℓ)) && !st.is_valid)) with
          | true =>
            rw [hsk] at h
            simp only [if_true] at h
            simp only [Option.map_some', Option.some.injEq] at h
            rw [← h]
            exact ⟨rfl, rfl, rfl⟩
          | false =>
            rw [hsk] at hcl
            simp only [Bool.false_eq_true, if_false] at hcl
            simp at hcl
      }
  · intro st ℓ st₁ h hcond
    simp only [importLine] at h
    cases hend : pyEndsWith (chars "..") (pyStrip ℓ) with
    | false =>
      rw [hend] at h
      simp only [Bool.not_false, Bool.or_true, if_true] at h
      rw [Option.map_eq_some'] at h
      obtain ⟨u, -, hfu⟩ := h
      rw [← hfu]
      exact ⟨rfl, rfl, rfl⟩
    | true =>
      rcases hcond with hcl | hfls
      · simp only [classifyImport] at hcl
        cases hg : (hasChar '=' ℓ && hasChar '"' ℓ) with
        | true =>
          rw [hg, if_pos rfl] at hcl
          cases hf1 : findIdx '=' ℓ with
          | none => rw [hg, if_pos rfl, hf1] at h; simp at h
          | some i1 =>
            rw [hf1] at hcl
            dsimp only at hcl
            cases hf2 : findIdxFrom '"' (i1 + 1) ℓ with
            | none => rw [hg, if_pos rfl, hf1] at h; dsimp only at h; rw [hf2] at h; simp at h
            | some i2 =>
              rw [hf2] at hcl
              dsimp only at hcl
              cases hf3 : rfindIdx '"' ℓ with
              | none =>
                rw [hg, if_pos rfl, hf1] at h
                dsimp only at h
                rw [hf2] at h
                dsimp only at h
                rw [hf3] at h
                simp at h
              | some i3 =>
                rw [hf3] at hcl
                simp at hcl
        | false =>
          rw [hg] at hcl h
          simp only [Bool.false_eq_true, if_false] at hcl h
          cases hsk : (containsSub (chars "--") ℓ || (pyStrip ℓ).isEmpty
              || (pyEndsWith (chars "..") (pyStrip ℓ) && !st.is_valid)) with
          | true =>
            rw [hsk] at h
            simp only [if_true] at h
            simp only [Option.map_some', Option.some.injEq] at h
            rw [← h]
            exact ⟨rfl, rfl, rfl⟩
          | false =>
            rw [hsk] at hcl
            simp only [Bool.false_eq_true, if_false] at hcl
            simp at hcl
      · rw [hend] at hfls; cases hfls

theorem c8_reset_invariant_witness :
    (parseLine pst0 (chars "foo\n")
      = some { out := chars "foo\n", tdict := [], is_valid := false, key := [], text := [],
               warnings := 0 }) ∧
    (pyEndsWith (chars "..") (pyStrip (escapeFull (chars "foo\n"))) = false) ∧
    ((false : Bool) = false ∧ ([] : Str) = [] ∧ ([] : Str) = []) ∧
    (importLine { tr := [], is_valid := false, key := [], text := [] } (chars "-- c\n")
      = some { tr := [], is_valid := false, key := [], text := [] }) ∧
    (classifyImport false (chars "-- c\n") = some LClass.skip) ∧
    ({ tr := ([] : Dict), is_valid := false, key := ([] : Str), text := ([] : Str) : ISt}.is_valid = false) :=
  ⟨by decide, by decide,
   c8_reset_invariant.1 pst0 (chars "foo\n")
     { out := chars "foo\n", tdict := [], is_valid := false, key := [], text := [], warnings := 0 }
     (by decide) (Or.inr (Or.inr (by decide))),
   by decide, by decide,
   (c8_reset_invariant.2 { tr := [], is_valid := false, key := [], text := [] } (chars "-- c\n")
     { tr := [], is_valid := false, key := [], text := [] }
     (by decide) (Or.inl (by decide))).1⟩
